import Mathlib

/-!
# Verification of the yaani dataset-composition and rendering engine

Shallow embedding of `src/yaani/yaani.py` (classes `DataSetLoader.Utils`
and `InventoryRenderer.Utils`).  JSON-like values are modelled by the
inductive type `Value`; Python `dict`s (which are ordered mappings) are
modelled as association lists together with the operations `pyGet`,
`pyInsert`, `pyUpdate` and `pyAppendAt`, which reproduce Python's
insertion-order semantics.  A dataset element carries its Python object
identity as a natural-number tag (`id(elt)` in the source), because the
indexer builds `{id(elt): elt}` dictionaries.

The embedded jq query of a pivot/index configuration is abstracted as a
Lean function `Record → Value` (the single value the query produces for
one record, matching the engine's `first`-mode usage); the filter stage,
whose query runs against the whole dataset and may produce several
results, is abstracted as `Value → List Value`.  Numbers are modelled as
integers and Python's numeric/boolean equality conflation (`1 == True`)
is not modelled: keys are compared structurally.
-/

/-- A JSON-like value as decoded by the engine (dicts keep insertion order). -/
inductive Value : Type
  | null : Value
  | bool (b : Bool) : Value
  | num (n : Int) : Value
  | str (s : String) : Value
  | list (l : List Value) : Value
  | obj (m : List (String × Value)) : Value

mutual

/-- Decidable equality on `Value` (structural; Python's `1 == True`
conflation is deliberately not modelled). -/
def Value.decEq : (a b : Value) → Decidable (a = b)
  | .null, .null => .isTrue rfl
  | .null, .bool _ => .isFalse nofun
  | .null, .num _ => .isFalse nofun
  | .null, .str _ => .isFalse nofun
  | .null, .list _ => .isFalse nofun
  | .null, .obj _ => .isFalse nofun
  | .bool _, .null => .isFalse nofun
  | .bool a, .bool b =>
      if h : a = b then .isTrue (by rw [h])
      else .isFalse fun hh => h (Value.bool.inj hh)
  | .bool _, .num _ => .isFalse nofun
  | .bool _, .str _ => .isFalse nofun
  | .bool _, .list _ => .isFalse nofun
  | .bool _, .obj _ => .isFalse nofun
  | .num _, .null => .isFalse nofun
  | .num _, .bool _ => .isFalse nofun
  | .num a, .num b =>
      if h : a = b then .isTrue (by rw [h])
      else .isFalse fun hh => h (Value.num.inj hh)
  | .num _, .str _ => .isFalse nofun
  | .num _, .list _ => .isFalse nofun
  | .num _, .obj _ => .isFalse nofun
  | .str _, .null => .isFalse nofun
  | .str _, .bool _ => .isFalse nofun
  | .str _, .num _ => .isFalse nofun
  | .str a, .str b =>
      if h : a = b then .isTrue (by rw [h])
      else .isFalse fun hh => h (Value.str.inj hh)
  | .str _, .list _ => .isFalse nofun
  | .str _, .obj _ => .isFalse nofun
  | .list _, .null => .isFalse nofun
  | .list _, .bool _ => .isFalse nofun
  | .list _, .num _ => .isFalse nofun
  | .list _, .str _ => .isFalse nofun
  | .list a, .list b =>
      match Value.decEqList a b with
      | .isTrue h => .isTrue (by rw [h])
      | .isFalse h => .isFalse fun hh => h (Value.list.inj hh)
  | .list _, .obj _ => .isFalse nofun
  | .obj _, .null => .isFalse nofun
  | .obj _, .bool _ => .isFalse nofun
  | .obj _, .num _ => .isFalse nofun
  | .obj _, .str _ => .isFalse nofun
  | .obj _, .list _ => .isFalse nofun
  | .obj a, .obj b =>
      match Value.decEqObj a b with
      | .isTrue h => .isTrue (by rw [h])
      | .isFalse h => .isFalse fun hh => h (Value.obj.inj hh)

/-- Decidable equality on lists of values. -/
def Value.decEqList : (a b : List Value) → Decidable (a = b)
  | [], [] => .isTrue rfl
  | [], _ :: _ => .isFalse nofun
  | _ :: _, [] => .isFalse nofun
  | x :: xs, y :: ys =>
      match Value.decEq x y, Value.decEqList xs ys with
      | .isTrue h1, .isTrue h2 => .isTrue (by rw [h1, h2])
      | .isFalse h1, _ => .isFalse fun hh => h1 (List.cons.inj hh).1
      | _, .isFalse h2 => .isFalse fun hh => h2 (List.cons.inj hh).2

/-- Decidable equality on string-keyed mappings of values. -/
def Value.decEqObj : (a b : List (String × Value)) → Decidable (a = b)
  | [], [] => .isTrue rfl
  | [], _ :: _ => .isFalse nofun
  | _ :: _, [] => .isFalse nofun
  | (k1, v1) :: xs, (k2, v2) :: ys =>
      match String.decEq k1 k2, Value.decEq v1 v2, Value.decEqObj xs ys with
      | .isTrue hk, .isTrue hv, .isTrue ht => .isTrue (by rw [hk, hv, ht])
      | .isFalse hk, _, _ =>
          .isFalse fun hh => hk (congrArg Prod.fst (List.cons.inj hh).1)
      | _, .isFalse hv, _ =>
          .isFalse fun hh => hv (congrArg Prod.snd (List.cons.inj hh).1)
      | _, _, .isFalse ht => .isFalse fun hh => ht (List.cons.inj hh).2

end

instance : DecidableEq Value := Value.decEq

/-- A record: one ordered string-keyed mapping (a Python `dict`). -/
abbrev Record := List (String × Value)

/-- A dataset element: Python object identity (`id(elt)`) plus its content. -/
abbrev Elt := Nat × Record

/-- Python truthiness of a JSON value (`if indx:` in the source):
`None`, `False`, `0`, `""`, `[]` and `{}` are falsy. -/
def Value.truthy : Value → Bool
  | .null => false
  | .bool b => b
  | .num n => n != 0
  | .str s => s != ""
  | .list l => !l.isEmpty
  | .obj m => !m.isEmpty

/-- `isinstance(v, list) or isinstance(v, dict)` in the source. -/
def Value.isContainer : Value → Bool
  | .list _ => true
  | .obj _ => true
  | _ => false

/-- `d[k]` / `d.get(k)`: first (and only) binding of `k` in a Python dict. -/
def pyGet {α β : Type} [DecidableEq α] : List (α × β) → α → Option β
  | [], _ => none
  | (k0, v0) :: rest, k => if k = k0 then some v0 else pyGet rest k

/-- `d[k] = v` on a Python dict: overwrite in place, or append a new binding. -/
def pyInsert {α β : Type} [DecidableEq α] : List (α × β) → α → β → List (α × β)
  | [], k, v => [(k, v)]
  | (k0, v0) :: rest, k, v =>
      if k = k0 then (k0, v) :: rest else (k0, v0) :: pyInsert rest k v

/-- `dict(pairs)` / `{k: v for ...}`: fold `pyInsert` over a pair list. -/
def pyDictOf {α β : Type} [DecidableEq α] (l : List (α × β)) : List (α × β) :=
  l.foldl (fun d kv => pyInsert d kv.1 kv.2) []

/-- `d.update(e)` on a Python dict. -/
def pyUpdate {α β : Type} [DecidableEq α] (d e : List (α × β)) : List (α × β) :=
  e.foldl (fun d kv => pyInsert d kv.1 kv.2) d

/-- `d.setdefault(k, []).append(v)` on a Python dict of lists. -/
def pyAppendAt {α β : Type} [DecidableEq α] : List (α × List β) → α → β → List (α × List β)
  | [], k, v => [(k, [v])]
  | (k0, l0) :: rest, k, v =>
      if k = k0 then (k0, l0 ++ [v]) :: rest else (k0, l0) :: pyAppendAt rest k v

example : pyGet (pyInsert [(1, 2)] 1 3) 1 = some 3 := by decide
example : pyDictOf [(1, 2), (3, 4), (1, 5)] = [(1, 5), (3, 4)] := by decide

/-! ### Association-list (Python dict) lemmas -/

theorem pyGet_eq_none {α β : Type} [DecidableEq α] {d : List (α × β)} {k : α} :
    pyGet d k = none ↔ k ∉ d.map Prod.fst := by
  induction d with
  | nil => simp [pyGet]
  | cons hd tl ih =>
      obtain ⟨k0, v0⟩ := hd
      by_cases h : k = k0 <;> simp [pyGet, h, ih]

theorem pyGet_isSome {α β : Type} [DecidableEq α] {d : List (α × β)} {k : α} :
    (pyGet d k).isSome ↔ k ∈ d.map Prod.fst := by
  rw [Option.isSome_iff_ne_none, ne_eq, pyGet_eq_none, not_not]

theorem pyGet_append {α β : Type} [DecidableEq α] (d1 d2 : List (α × β)) (k : α) :
    pyGet (d1 ++ d2) k = (pyGet d1 k).orElse (fun _ => pyGet d2 k) := by
  induction d1 with
  | nil => simp [pyGet]
  | cons hd tl ih =>
      obtain ⟨k0, v0⟩ := hd
      by_cases h : k = k0 <;> simp [pyGet, h, ih]

theorem pyGet_mem {α β : Type} [DecidableEq α] {d : List (α × β)} {k : α} {v : β}
    (h : pyGet d k = some v) : (k, v) ∈ d := by
  induction d with
  | nil => simp [pyGet] at h
  | cons hd tl ih =>
      obtain ⟨k0, v0⟩ := hd
      by_cases hk : k = k0
      · simp [pyGet, hk] at h
        simp [hk, h]
      · simp [pyGet, hk] at h
        exact List.mem_cons_of_mem _ (ih h)

theorem mem_pyGet_isSome {α β : Type} [DecidableEq α] {d : List (α × β)} {k : α} {v : β}
    (h : (k, v) ∈ d) : (pyGet d k).isSome := by
  rw [pyGet_isSome]
  exact List.mem_map_of_mem Prod.fst h

theorem pyGet_eq_some_of_nodup {α β : Type} [DecidableEq α] {d : List (α × β)} {k : α} {v : β}
    (hn : (d.map Prod.fst).Nodup) (h : (k, v) ∈ d) : pyGet d k = some v := by
  induction d with
  | nil => simp at h
  | cons hd tl ih =>
      obtain ⟨k0, v0⟩ := hd
      simp only [List.map_cons, List.nodup_cons] at hn
      rcases List.mem_cons.mp h with h1 | h1
      · obtain ⟨rfl, rfl⟩ := Prod.mk.inj h1
        simp [pyGet]
      · have hne : k ≠ k0 := by
          rintro rfl
          exact hn.1 (List.mem_map_of_mem Prod.fst h1)
        simp [pyGet, hne]
        exact ih hn.2 h1

theorem pyGet_reverse_of_nodup {α β : Type} [DecidableEq α] {d : List (α × β)} {k : α}
    (hn : (d.map Prod.fst).Nodup) : pyGet d.reverse k = pyGet d k := by
  have hn2 : (d.reverse.map Prod.fst).Nodup := by
    rw [List.map_reverse]
    exact List.nodup_reverse.mpr hn
  cases h : pyGet d k with
  | none =>
      rw [pyGet_eq_none] at h ⊢
      simpa [List.map_reverse] using h
  | some v =>
      exact pyGet_eq_some_of_nodup hn2 (List.mem_reverse.mpr (pyGet_mem h))

theorem pyInsert_of_not_mem {α β : Type} [DecidableEq α] {d : List (α × β)} {k : α} (v : β)
    (h : k ∉ d.map Prod.fst) : pyInsert d k v = d ++ [(k, v)] := by
  induction d with
  | nil => simp [pyInsert]
  | cons hd tl ih =>
      obtain ⟨k0, v0⟩ := hd
      simp only [List.map_cons, List.mem_cons, not_or] at h
      simp [pyInsert, h.1, ih h.2]

theorem pyGet_pyInsert_self {α β : Type} [DecidableEq α] (d : List (α × β)) (k : α) (v : β) :
    pyGet (pyInsert d k v) k = some v := by
  induction d with
  | nil => simp [pyInsert, pyGet]
  | cons hd tl ih =>
      obtain ⟨k0, v0⟩ := hd
      by_cases h : k = k0 <;> simp [pyInsert, pyGet, h, ih]

theorem pyGet_pyInsert_ne {α β : Type} [DecidableEq α] (d : List (α × β)) {k q : α} (v : β)
    (h : q ≠ k) : pyGet (pyInsert d k v) q = pyGet d q := by
  induction d with
  | nil => simp [pyInsert, pyGet, h]
  | cons hd tl ih =>
      obtain ⟨k0, v0⟩ := hd
      by_cases h1 : k = k0
      · subst h1
        simp [pyInsert, pyGet, h]
      · by_cases h2 : q = k0 <;> simp [pyInsert, pyGet, h1, h2, ih]

theorem pyGet_pyUpdate {α β : Type} [DecidableEq α] (d e : List (α × β)) (k : α) :
    pyGet (pyUpdate d e) k = (pyGet e.reverse k).orElse (fun _ => pyGet d k) := by
  induction e generalizing d with
  | nil => simp [pyUpdate, pyGet]
  | cons hd tl ih =>
      obtain ⟨k0, v0⟩ := hd
      have step : pyUpdate d ((k0, v0) :: tl) = pyUpdate (pyInsert d k0 v0) tl := by
        simp [pyUpdate]
      rw [step, ih]
      by_cases h : k = k0
      · subst h
        cases hrev : pyGet tl.reverse k with
        | none => simp [pyGet_append, hrev, pyGet, pyGet_pyInsert_self]
        | some v => simp [pyGet_append, hrev]
      · cases hrev : pyGet tl.reverse k with
        | none => simp [pyGet_append, hrev, pyGet, h, pyGet_pyInsert_ne _ _ h]
        | some v => simp [pyGet_append, hrev]

theorem pyGet_pyAppendAt_self {α β : Type} [DecidableEq α] (d : List (α × List β)) (k : α) (v : β) :
    pyGet (pyAppendAt d k v) k = some ((pyGet d k).getD [] ++ [v]) := by
  induction d with
  | nil => simp [pyAppendAt, pyGet]
  | cons hd tl ih =>
      obtain ⟨k0, l0⟩ := hd
      by_cases h : k = k0 <;> simp [pyAppendAt, pyGet, h, ih]

theorem pyGet_pyAppendAt_ne {α β : Type} [DecidableEq α] (d : List (α × List β)) {k q : α} (v : β)
    (h : q ≠ k) : pyGet (pyAppendAt d k v) q = pyGet d q := by
  induction d with
  | nil => simp [pyAppendAt, pyGet, h]
  | cons hd tl ih =>
      obtain ⟨k0, l0⟩ := hd
      by_cases h1 : k = k0
      · subst h1
        simp [pyAppendAt, pyGet, h]
      · by_cases h2 : q = k0 <;> simp [pyAppendAt, pyGet, h1, h2, ih]

theorem foldl_pyInsert_eq_append {α β : Type} [DecidableEq α]
    (l : List (α × β)) (acc : List (α × β))
    (h : ((acc ++ l).map Prod.fst).Nodup) :
    l.foldl (fun d kv => pyInsert d kv.1 kv.2) acc = acc ++ l := by
  induction l generalizing acc with
  | nil => simp
  | cons hd tl ih =>
      obtain ⟨k0, v0⟩ := hd
      have hk : k0 ∉ acc.map Prod.fst := by
        simp only [List.map_append, List.nodup_append] at h
        intro hmem
        exact h.2.2 hmem (by simp)
      have step : pyInsert acc k0 v0 = acc ++ [(k0, v0)] := pyInsert_of_not_mem v0 hk
      simp only [List.foldl_cons, step]
      rw [ih (acc ++ [(k0, v0)]) (by simpa using h)]
      simp

/-- A list whose identity tags are pairwise distinct is left unchanged by
the `{id(elt): elt for elt in elt_lst}` dictionary construction. -/
theorem pyDictOf_eq_self {α β : Type} [DecidableEq α] {l : List (α × β)}
    (h : (l.map Prod.fst).Nodup) : pyDictOf l = l := by
  unfold pyDictOf
  simpa using foldl_pyInsert_eq_append l [] (by simpa using h)

/-- The `YaaniError` raised by the engine, modelled structurally (the
source formats everything into one exception type with a message). -/
inductive Err : Type
  | queryError : Err
  | nonScalarKey (v : Value) : Err
  | duplicateKey (v : Value) : Err
  | unknownRef (s : String) : Err
  | missingKey (s : String) : Err
  | wrap (context : String) (e : Err) : Err
  | reduceCrash : Err
  deriving DecidableEq

/-! ## `DataSetLoader.Utils.map_elt_to_value`

The source first builds `tmp_dct = {id(elt): elt for elt in elt_lst}`
(deduplicating by object identity), then computes every element's pivot
value with one jq call, then runs one of two accumulation loops
depending on `overlap`.  The pivot query is abstracted as
`f : Record → Value`. -/

/-- The `overlap=False` accumulation loop shared (textually duplicated in
the source) by `map_elt_to_value` and `index_elements`: falsy keys are
skipped (`if indx:`), container keys raise, duplicate keys raise, and
each surviving element is stored under its key (`result[indx] = elt`). -/
def index_loop {E : Type} (key : E → Value) :
    List E → List (Value × E) → Except Err (List (Value × E))
  | [], acc => .ok acc
  | e :: rest, acc =>
      let k := key e
      if k.truthy then
        if k.isContainer then .error (.nonScalarKey k)
        else if (pyGet acc k).isSome then .error (.duplicateKey k)
        else index_loop key rest (acc ++ [(k, e)])
      else index_loop key rest acc

/-- The `overlap=True` accumulation loop of `map_elt_to_value`:
falsy keys are skipped, container keys raise, and each surviving
element is appended to its key's list (`setdefault(indx, []).append`). -/
def index_loop_overlap {E : Type} (key : E → Value) :
    List E → List (Value × List E) → Except Err (List (Value × List E))
  | [], acc => .ok acc
  | e :: rest, acc =>
      let k := key e
      if k.truthy then
        if k.isContainer then .error (.nonScalarKey k)
        else index_loop_overlap key rest (pyAppendAt acc k e)
      else index_loop_overlap key rest acc

/-- `DataSetLoader.Utils.map_elt_to_value(query, elt_lst)` with
`overlap=False` (the default): index a dataset exclusively. -/
def map_elt_to_value (f : Record → Value) (elt_lst : List Elt) :
    Except Err (List (Value × Elt)) :=
  index_loop (fun e => f e.2) (pyDictOf elt_lst) []

/-- `DataSetLoader.Utils.map_elt_to_value(query, elt_lst, overlap=True)`:
index a dataset in overlap (grouping) mode. -/
def map_elt_to_value_overlap (f : Record → Value) (elt_lst : List Elt) :
    Except Err (List (Value × List Elt)) :=
  index_loop_overlap (fun e => f e.2) (pyDictOf elt_lst) []

/-- One step of the overlap accumulation (pure part of the loop body). -/
def ovlStep {E : Type} (key : E → Value) (acc : List (Value × List E)) (e : E) :
    List (Value × List E) :=
  if (key e).truthy then pyAppendAt acc (key e) e else acc

/-- The view the overlap loop builds when it does not fail. -/
def ovlFold {E : Type} (key : E → Value) (l : List E) (acc : List (Value × List E)) :
    List (Value × List E) :=
  l.foldl (ovlStep key) acc

/-- Without truthy container keys the overlap loop succeeds and returns
the pure fold. -/
theorem index_loop_overlap_ok_of {E : Type} (key : E → Value) (l : List E)
    (acc : List (Value × List E))
    (hc : ∀ e ∈ l, (key e).truthy → (key e).isContainer = false) :
    index_loop_overlap key l acc = .ok (ovlFold key l acc) := by
  induction l generalizing acc with
  | nil => simp [index_loop_overlap, ovlFold]
  | cons e rest ih =>
      by_cases ht : (key e).truthy
      · simp only [index_loop_overlap, ht, if_true,
          hc e (List.mem_cons_self e rest) ht, Bool.false_eq_true, if_false]
        rw [ih (pyAppendAt acc (key e) e) (fun x hx => hc x (List.mem_cons_of_mem e hx))]
        simp [ovlFold, ovlStep, ht]
      · simp only [index_loop_overlap, ht, Bool.false_eq_true, if_false]
        rw [ih acc (fun x hx => hc x (List.mem_cons_of_mem e hx))]
        simp [ovlFold, ovlStep, ht]

/-- Success of the overlap loop forces the absence of truthy container
keys, and the result is the pure fold. -/
theorem index_loop_overlap_ok {E : Type} (key : E → Value) (l : List E)
    (acc res : List (Value × List E))
    (h : index_loop_overlap key l acc = .ok res) :
    (∀ e ∈ l, (key e).truthy → (key e).isContainer = false) ∧
      res = ovlFold key l acc := by
  induction l generalizing acc with
  | nil =>
      simp only [index_loop_overlap, Except.ok.injEq] at h
      subst h
      simp [ovlFold]
  | cons e rest ih =>
      simp only [index_loop_overlap] at h
      by_cases ht : (key e).truthy
      · simp only [ht, if_true] at h
        by_cases hcc : (key e).isContainer
        · simp [hcc] at h
        · simp only [hcc, Bool.false_eq_true, if_false] at h
          obtain ⟨h1, h2⟩ := ih (pyAppendAt acc (key e) e) h
          refine ⟨?_, ?_⟩
          · intro x hx
            rcases List.mem_cons.mp hx with rfl | hx
            · intro _; simpa using hcc
            · exact h1 x hx
          · rw [h2]; simp [ovlFold, ovlStep, ht]
      · simp only [ht, Bool.false_eq_true, if_false] at h
        obtain ⟨h1, h2⟩ := ih acc h
        refine ⟨?_, ?_⟩
        · intro x hx
          rcases List.mem_cons.mp hx with rfl | hx
          · intro hxx; exact absurd hxx (by simpa using ht)
          · exact h1 x hx
        · rw [h2]; simp [ovlFold, ovlStep, ht]

/-- Looking a truthy key up in the overlap fold yields the kept elements
with that key, appended in traversal order. -/
theorem pyGet_ovlFold {E : Type} (key : E → Value) (l : List E)
    (acc : List (Value × List E)) (k : Value) :
    pyGet (ovlFold key l acc) k =
      match pyGet acc k with
      | some g =>
          some (g ++ l.filter (fun e => (key e).truthy && decide (key e = k)))
      | none =>
          if (l.filter (fun e => (key e).truthy && decide (key e = k))).isEmpty
          then none
          else some (l.filter (fun e => (key e).truthy && decide (key e = k))) := by
  induction l generalizing acc with
  | nil =>
      cases hga : pyGet acc k <;> simp [ovlFold, hga]
  | cons e rest ih =>
      by_cases ht : (key e).truthy
      · by_cases hk : key e = k
        · subst hk
          have hstep : ovlFold key (e :: rest) acc =
              ovlFold key rest (pyAppendAt acc (key e) e) := by
            simp [ovlFold, ovlStep, ht]
          rw [hstep, ih]
          rw [pyGet_pyAppendAt_self]
          cases hga : pyGet acc (key e) <;>
            simp [hga, List.filter_cons, ht]
        · have hstep : ovlFold key (e :: rest) acc =
              ovlFold key rest (pyAppendAt acc (key e) e) := by
            simp [ovlFold, ovlStep, ht]
          rw [hstep, ih]
          rw [pyGet_pyAppendAt_ne _ _ (fun hh => hk hh.symm)]
          cases hga : pyGet acc k <;>
            simp [hga, List.filter_cons, ht, hk]
      · have hstep : ovlFold key (e :: rest) acc = ovlFold key rest acc := by
          simp [ovlFold, ovlStep, ht]
        rw [hstep, ih]
        have hfe : ((key e).truthy && decide (key e = k)) = false := by
          simp [ht]
        cases hga : pyGet acc k <;>
          simp [hga, List.filter_cons, hfe]

/-- A render-pipeline element: the Python tuple `(elt, rendered)` built in
`render_group`, i.e. the import namespace and the build namespace, tagged
with the tuple's object identity. -/
abbrev RElt := Nat × (Record × Record)

/-- Namespace selection (`index_cfg.get("namespace", "import") == "build"`). -/
def pickNs (useBuild : Bool) (e : Record × Record) : Record :=
  if useBuild then e.2 else e.1

/-- `InventoryRenderer.Utils.index_elements(index_cfg, data_set)`: the
render pipeline's final (always exclusive) indexing, over the chosen
namespace of each `(import, build)` pair.  Its loop in the source is a
textual copy of the exclusive loop of `map_elt_to_value`. -/
def index_elements (useBuild : Bool) (f : Record → Value) (data_set : List RElt) :
    Except Err (List (Value × RElt)) :=
  index_loop (fun e => f (pickNs useBuild e.2)) (pyDictOf data_set) []

/-! ### Characterisation of the indexing loops -/

/-- The elements whose computed key is truthy (all others are dropped). -/
def keyKept {E : Type} (key : E → Value) (l : List E) : List E :=
  l.filter (fun e => (key e).truthy)

/-- The keyed view an exclusive indexing pass produces on success. -/
def exclView {E : Type} (key : E → Value) (l : List E) : List (Value × E) :=
  (keyKept key l).map (fun e => (key e, e))

/-- The keys an exclusive indexing pass inserts, in insertion order. -/
def exclKeys {E : Type} (key : E → Value) (l : List E) : List Value :=
  (keyKept key l).map key

theorem exclKeys_cons_truthy {E : Type} (key : E → Value) (e : E) (rest : List E)
    (ht : (key e).truthy) :
    exclKeys key (e :: rest) = key e :: exclKeys key rest := by
  simp [exclKeys, keyKept, List.filter_cons, ht]

theorem exclKeys_cons_falsy {E : Type} (key : E → Value) (e : E) (rest : List E)
    (ht : ¬(key e).truthy) :
    exclKeys key (e :: rest) = exclKeys key rest := by
  simp [exclKeys, keyKept, List.filter_cons, ht]

theorem exclView_cons_truthy {E : Type} (key : E → Value) (e : E) (rest : List E)
    (ht : (key e).truthy) :
    exclView key (e :: rest) = (key e, e) :: exclView key rest := by
  simp [exclView, keyKept, List.filter_cons, ht]

theorem exclView_cons_falsy {E : Type} (key : E → Value) (e : E) (rest : List E)
    (ht : ¬(key e).truthy) :
    exclView key (e :: rest) = exclView key rest := by
  simp [exclView, keyKept, List.filter_cons, ht]

/-- Success of the exclusive loop forces: no truthy container key, fresh
pairwise-distinct keys, and the result extends the accumulator with the
view of the processed list. -/
theorem index_loop_ok {E : Type} (key : E → Value) (l : List E)
    (acc res : List (Value × E)) (h : index_loop key l acc = .ok res) :
    (∀ e ∈ l, (key e).truthy → (key e).isContainer = false) ∧
      (exclKeys key l).Nodup ∧
      (∀ k ∈ exclKeys key l, pyGet acc k = none) ∧
      res = acc ++ exclView key l := by
  induction l generalizing acc with
  | nil =>
      simp only [index_loop, Except.ok.injEq] at h
      subst h
      simp [keyKept, exclView, exclKeys]
  | cons e rest ih =>
      simp only [index_loop] at h
      by_cases ht : (key e).truthy
      · simp only [ht, if_true] at h
        by_cases hc : (key e).isContainer
        · simp [hc] at h
        · simp only [hc, if_false, Bool.false_eq_true] at h
          by_cases hd : (pyGet acc (key e)).isSome
          · simp [hd] at h
          · simp only [hd, if_false, Bool.false_eq_true] at h
            obtain ⟨h1, h2, h3, h4⟩ := ih (acc ++ [(key e, e)]) h
            refine ⟨?_, ?_, ?_, ?_⟩
            · intro x hx
              rcases List.mem_cons.mp hx with rfl | hx
              · intro _; simpa using hc
              · exact h1 x hx
            · rw [exclKeys_cons_truthy key e rest ht, List.nodup_cons]
              refine ⟨?_, h2⟩
              intro hmem
              have := h3 (key e) hmem
              rw [pyGet_append] at this
              cases hga : pyGet acc (key e) <;> simp [hga, pyGet] at this
            · intro k hk
              rw [exclKeys_cons_truthy key e rest ht, List.mem_cons] at hk
              rcases hk with rfl | hk
              · simpa using hd
              · have := h3 k hk
                rw [pyGet_append] at this
                cases hga : pyGet acc k with
                | none => rfl
                | some v => simp [hga] at this
            · rw [h4, exclView_cons_truthy key e rest ht]
              simp
      · simp only [ht, if_false, Bool.false_eq_true] at h
        obtain ⟨h1, h2, h3, h4⟩ := ih acc h
        refine ⟨?_, ?_, ?_, ?_⟩
        · intro x hx
          rcases List.mem_cons.mp hx with rfl | hx
          · intro hxx; exact absurd hxx (by simpa using ht)
          · exact h1 x hx
        · rwa [exclKeys_cons_falsy key e rest ht]
        · intro k hk
          rw [exclKeys_cons_falsy key e rest ht] at hk
          exact h3 k hk
        · rwa [exclView_cons_falsy key e rest ht]

/-- Conversely, those conditions make the exclusive loop succeed. -/
theorem index_loop_ok_of {E : Type} (key : E → Value) (l : List E)
    (acc : List (Value × E))
    (hc : ∀ e ∈ l, (key e).truthy → (key e).isContainer = false)
    (hn : (exclKeys key l).Nodup)
    (hd : ∀ k ∈ exclKeys key l, pyGet acc k = none) :
    index_loop key l acc = .ok (acc ++ exclView key l) := by
  induction l generalizing acc with
  | nil => simp [index_loop, exclView, keyKept]
  | cons e rest ih =>
      by_cases ht : (key e).truthy
      · have hcons := exclKeys_cons_truthy key e rest ht
        have hn0 := hn
        rw [hcons, List.nodup_cons] at hn0
        have hge : pyGet acc (key e) = none :=
          hd _ (by rw [hcons]; exact List.mem_cons_self _ _)
        simp only [index_loop, ht, if_true, hc e (List.mem_cons_self e rest) ht,
          Bool.false_eq_true, if_false, hge, Option.isSome_none]
        have hstep := ih (acc ++ [(key e, e)])
          (fun x hx => hc x (List.mem_cons_of_mem e hx))
          hn0.2
          (fun k hk => by
            rw [pyGet_append]
            have hne : k ≠ key e := fun hh => hn0.1 (hh ▸ hk)
            have hga : pyGet acc k = none :=
              hd k (by rw [hcons]; exact List.mem_cons_of_mem _ hk)
            simp [hga, pyGet, hne])
        rw [hstep, exclView_cons_truthy key e rest ht]
        simp
      · simp only [index_loop, ht, Bool.false_eq_true, if_false]
        have hstep := ih acc
          (fun x hx => hc x (List.mem_cons_of_mem e hx))
          (by rwa [exclKeys_cons_falsy key e rest ht] at hn)
          (fun k hk => hd k (by rwa [exclKeys_cons_falsy key e rest ht]))
        rw [hstep, exclView_cons_falsy key e rest ht]

/-- Without truthy container keys, the exclusive loop either succeeds or
raises the duplicate-key error (never any other failure). -/
theorem index_loop_ok_or_dup {E : Type} (key : E → Value) (l : List E)
    (acc : List (Value × E))
    (hc : ∀ e ∈ l, (key e).truthy → (key e).isContainer = false) :
    (∃ res, index_loop key l acc = .ok res) ∨
      (∃ v, index_loop key l acc = .error (.duplicateKey v)) := by
  induction l generalizing acc with
  | nil => exact .inl ⟨acc, rfl⟩
  | cons e rest ih =>
      by_cases ht : (key e).truthy
      · simp only [index_loop, ht, if_true, hc e (List.mem_cons_self e rest) ht,
          Bool.false_eq_true, if_false]
        by_cases hd : (pyGet acc (key e)).isSome
        · simp only [hd, if_true]
          exact .inr ⟨key e, rfl⟩
        · simp only [hd, Bool.false_eq_true, if_false]
          exact ih (acc ++ [(key e, e)]) (fun x hx => hc x (List.mem_cons_of_mem e hx))
      · simp only [index_loop, ht, Bool.false_eq_true, if_false]
        exact ih acc (fun x hx => hc x (List.mem_cons_of_mem e hx))

theorem mem_exclView {E : Type} (key : E → Value) (l : List E) (k : Value) (e : E) :
    (k, e) ∈ exclView key l ↔ e ∈ l ∧ (key e).truthy ∧ k = key e := by
  simp only [exclView, keyKept, List.mem_map, List.mem_filter, Prod.mk.injEq]
  constructor
  · rintro ⟨a, ⟨ha, hta⟩, hk, rfl⟩
    exact ⟨ha, hta, hk.symm⟩
  · rintro ⟨ha, hta, rfl⟩
    exact ⟨e, ⟨ha, hta⟩, rfl, rfl⟩

theorem pyAppendAt_map_fst {α β : Type} [DecidableEq α]
    (d : List (α × List β)) (k : α) (v : β) :
    (pyAppendAt d k v).map Prod.fst =
      if k ∈ d.map Prod.fst then d.map Prod.fst else d.map Prod.fst ++ [k] := by
  induction d with
  | nil => simp [pyAppendAt]
  | cons hd tl ih =>
      obtain ⟨k0, l0⟩ := hd
      by_cases h : k = k0
      · simp [pyAppendAt, h]
      · simp only [pyAppendAt, if_neg h, List.map_cons, List.mem_cons, ih]
        by_cases h2 : k ∈ tl.map Prod.fst <;> simp [h2, h]

theorem ovlFold_keys_nodup {E : Type} (key : E → Value) (l : List E)
    (acc : List (Value × List E)) (h : (acc.map Prod.fst).Nodup) :
    ((ovlFold key l acc).map Prod.fst).Nodup := by
  induction l generalizing acc with
  | nil => simpa [ovlFold]
  | cons e rest ih =>
      have hstep : ovlFold key (e :: rest) acc = ovlFold key rest (ovlStep key acc e) := by
        simp [ovlFold]
      rw [hstep]
      apply ih
      unfold ovlStep
      by_cases ht : (key e).truthy
      · simp only [ht, if_true, pyAppendAt_map_fst]
        by_cases hm : key e ∈ acc.map Prod.fst
        · simpa [hm]
        · simp [hm, h, List.nodup_append]
      · simpa [ht]

theorem mem_ovlFold_eq_filter {E : Type} (key : E → Value) (l : List E)
    (k : Value) (g : List E) (h : (k, g) ∈ ovlFold key l []) :
    g = l.filter (fun e => (key e).truthy && decide (key e = k)) ∧ g ≠ [] := by
  have hn : ((ovlFold key l []).map Prod.fst).Nodup :=
    ovlFold_keys_nodup key l [] (by simp)
  have hg : pyGet (ovlFold key l []) k = some g := pyGet_eq_some_of_nodup hn h
  rw [pyGet_ovlFold] at hg
  simp only [pyGet] at hg
  by_cases he : (l.filter (fun e => (key e).truthy && decide (key e = k))).isEmpty
  · simp [he] at hg
  · simp only [he, Bool.false_eq_true, if_false, Option.some.injEq] at hg
    refine ⟨hg.symm, ?_⟩
    intro hempty
    rw [hg] at he
    simp [hempty] at he

/-! ### Object identity and duplicate occurrences (claim C10) -/

/-- Inserting a binding that is already present (same key, same value)
leaves a Python dict unchanged. -/
theorem pyInsert_self_value {α β : Type} [DecidableEq α] {d : List (α × β)} {k : α} {v : β}
    (h : pyGet d k = some v) : pyInsert d k v = d := by
  induction d with
  | nil => simp [pyGet] at h
  | cons hd tl ih =>
      obtain ⟨k0, v0⟩ := hd
      by_cases hk : k = k0
      · subst hk
        rw [show pyGet ((k, v0) :: tl) k = some v0 from by simp [pyGet]] at h
        obtain rfl := Option.some.inj h
        simp [pyInsert]
      · simp only [pyGet, if_neg hk] at h
        simp [pyInsert, hk, ih h]

/-- A list of tagged elements with its repeated occurrences removed
(first occurrence of each tag kept). -/
def firstOcc {α β : Type} [DecidableEq α] (l : List (α × β)) : List (α × β) :=
  l.foldl (fun acc e => if (pyGet acc e.1).isSome then acc else acc ++ [e]) []

theorem foldl_skip_keys_nodup {α β : Type} [DecidableEq α] (l : List (α × β))
    (acc : List (α × β)) (h : (acc.map Prod.fst).Nodup) :
    ((l.foldl (fun acc e => if (pyGet acc e.1).isSome then acc else acc ++ [e]) acc).map
        Prod.fst).Nodup := by
  induction l generalizing acc with
  | nil => simpa
  | cons e rest ih =>
      simp only [List.foldl_cons]
      by_cases hk : (pyGet acc e.1).isSome
      · simp only [hk, if_true]
        exact ih acc h
      · simp only [hk, Bool.false_eq_true, if_false]
        apply ih
        have : e.1 ∉ acc.map Prod.fst := by
          rw [← pyGet_isSome] at *
          simpa using hk
        simp [List.nodup_append, h, this]

/-- The tags of `firstOcc l` are pairwise distinct. -/
theorem firstOcc_keys_nodup {α β : Type} [DecidableEq α] (l : List (α × β)) :
    ((firstOcc l).map Prod.fst).Nodup :=
  foldl_skip_keys_nodup l [] (by simp)

theorem foldl_insert_eq_skip {α β : Type} [DecidableEq α] :
    ∀ (l acc : List (α × β)),
      (∀ e1 ∈ l, ∀ e2 ∈ l, e1.1 = e2.1 → e1.2 = e2.2) →
      (∀ e ∈ l, ∀ v, pyGet acc e.1 = some v → v = e.2) →
      l.foldl (fun d kv => pyInsert d kv.1 kv.2) acc =
        l.foldl (fun acc e => if (pyGet acc e.1).isSome then acc else acc ++ [e]) acc
  | [], _, _, _ => rfl
  | e :: rest, acc, hcons, hacc => by
      obtain ⟨ek, ev⟩ := e
      simp only [List.foldl_cons]
      by_cases hk : (pyGet acc ek).isSome
      · obtain ⟨v, hv⟩ := Option.isSome_iff_exists.mp hk
        have hve : v = ev := hacc (ek, ev) (List.mem_cons_self _ rest) v hv
        rw [show pyInsert acc ek ev = acc from hve ▸ pyInsert_self_value hv]
        simp only [hk, if_true]
        exact foldl_insert_eq_skip rest acc
          (fun a ha b hb =>
            hcons a (List.mem_cons_of_mem _ ha) b (List.mem_cons_of_mem _ hb))
          (fun a ha v2 hv2 => hacc a (List.mem_cons_of_mem _ ha) v2 hv2)
      · have hnm : ek ∉ acc.map Prod.fst := by
          rw [← pyGet_isSome]
          simpa using hk
        rw [pyInsert_of_not_mem ev hnm]
        simp only [hk, Bool.false_eq_true, if_false]
        exact foldl_insert_eq_skip rest (acc ++ [(ek, ev)])
          (fun a ha b hb =>
            hcons a (List.mem_cons_of_mem _ ha) b (List.mem_cons_of_mem _ hb))
          (fun a ha v2 hv2 => by
            rw [pyGet_append] at hv2
            cases hga : pyGet acc a.1 with
            | some w =>
                rw [hga] at hv2
                simp at hv2
                exact hv2 ▸ hacc a (List.mem_cons_of_mem _ ha) w hga
            | none =>
                rw [hga] at hv2
                by_cases hae : a.1 = ek
                · simp [pyGet, hae] at hv2
                  have h2 : a.2 = ev :=
                    hcons a (List.mem_cons_of_mem _ ha) (ek, ev)
                      (List.mem_cons_self _ rest) hae
                  subst hv2
                  exact h2.symm
                · simp [pyGet, hae] at hv2)

/-- When repeated tags always carry the same content (the Python
situation: `id(x) = id(y)` implies `x` and `y` are the same object),
building `{id(elt): elt}` is exactly "drop the repeated occurrences". -/
theorem pyDictOf_eq_firstOcc {α β : Type} [DecidableEq α] (l : List (α × β))
    (hcons : ∀ e1 ∈ l, ∀ e2 ∈ l, e1.1 = e2.1 → e1.2 = e2.2) :
    pyDictOf l = firstOcc l := by
  unfold pyDictOf firstOcc
  exact foldl_insert_eq_skip l [] hcons (by intro e _ v hv; simp [pyGet] at hv)

/-- Without a successful run, the overlap loop can only have raised the
non-scalar-key error (it has no duplicate check). -/
theorem index_loop_overlap_ok_or_nonscalar {E : Type} (key : E → Value) (l : List E)
    (acc : List (Value × List E)) :
    (∃ res, index_loop_overlap key l acc = .ok res) ∨
      (∃ v, index_loop_overlap key l acc = .error (.nonScalarKey v) ∧
        v.truthy ∧ v.isContainer) := by
  induction l generalizing acc with
  | nil => exact .inl ⟨acc, rfl⟩
  | cons e rest ih =>
      by_cases ht : (key e).truthy
      · by_cases hcc : (key e).isContainer
        · refine .inr ⟨key e, ?_, ht, hcc⟩
          simp [index_loop_overlap, ht, hcc]
        · simp only [index_loop_overlap, ht, if_true, hcc, Bool.false_eq_true, if_false]
          exact ih (pyAppendAt acc (key e) e)
      · simp only [index_loop_overlap, ht, Bool.false_eq_true, if_false]
        exact ih acc

/-- The jq field-access query `.s` of the configuration files: the value
of field `s`, or null when the record does not have it. -/
def qField (s : String) (r : Record) : Value :=
  (pyGet r s).getD Value.null

/-! ## Claims C3, C4, C5: behaviour of the indexing step -/

/-- C3 (counterexample): two distinct records computing the same non-null
key `0` do NOT make exclusive indexing fail — both are silently dropped
(`if indx:` tests Python truthiness, not nullness), and overlap mode
produces an empty view instead of mapping the shared key `0` to both
records. -/
theorem claim_C3_counterexample :
    map_elt_to_value (qField "a")
        [(0, [("a", Value.num 0)]), (1, [("a", Value.num 0)])] = .ok [] ∧
      map_elt_to_value_overlap (qField "a")
        [(0, [("a", Value.num 0)]), (1, [("a", Value.num 0)])] = .ok [] ∧
      Value.num 0 ≠ Value.null ∧
      qField "a" [("a", Value.num 0)] = Value.num 0 :=
  ⟨rfl, rfl, by decide, rfl⟩

/-- C3 (amended): over a dataset of identity-distinct records whose
computed keys are never truthy containers, exclusive indexing fails with
a duplicate-key error as soon as two records compute the same *truthy*
key (null, `False`, `0`, `""` and empty containers are treated as
absent), while overlap indexing succeeds and maps each truthy key to the
ordered sublist of all records computing it, in dataset order. -/
theorem claim_C3_amended (f : Record → Value) (l : List Elt)
    (hids : (l.map Prod.fst).Nodup)
    (hsc : ∀ e ∈ l, (f e.2).truthy → (f e.2).isContainer = false) :
    ((∃ e1 ∈ l, ∃ e2 ∈ l, e1.1 ≠ e2.1 ∧ f e1.2 = f e2.2 ∧ (f e1.2).truthy) →
        ∃ v, map_elt_to_value f l = .error (.duplicateKey v)) ∧
      ∃ view, map_elt_to_value_overlap f l = .ok view ∧
        ∀ k, k.truthy →
          pyGet view k =
            (if (l.filter (fun e => decide (f e.2 = k))).isEmpty then none
             else some (l.filter (fun e => decide (f e.2 = k)))) := by
  have hdict : pyDictOf l = l := pyDictOf_eq_self hids
  constructor
  · rintro ⟨e1, he1, e2, he2, hne, hkey, htr⟩
    unfold map_elt_to_value
    rw [hdict]
    rcases index_loop_ok_or_dup (fun e : Elt => f e.2) l [] hsc with ⟨res, hres⟩ | ⟨v, hv⟩
    · exfalso
      obtain ⟨_, hnodup, _, _⟩ := index_loop_ok _ l [] res hres
      simp only [exclKeys] at hnodup
      have hm1 : e1 ∈ keyKept (fun e : Elt => f e.2) l := List.mem_filter.mpr ⟨he1, htr⟩
      have hm2 : e2 ∈ keyKept (fun e : Elt => f e.2) l :=
        List.mem_filter.mpr ⟨he2, by
          show (f e2.2).truthy = true
          rw [← hkey]
          exact htr⟩
      have heq := List.inj_on_of_nodup_map hnodup hm1 hm2 hkey
      exact hne (congrArg Prod.fst heq)
    · exact ⟨v, hv⟩
  · refine ⟨ovlFold (fun e : Elt => f e.2) l [], ?_, ?_⟩
    · unfold map_elt_to_value_overlap
      rw [hdict]
      exact index_loop_overlap_ok_of _ l [] hsc
    · intro k hk
      rw [pyGet_ovlFold]
      have hfc : l.filter (fun e : Elt => (f e.2).truthy && decide (f e.2 = k)) =
          l.filter (fun e : Elt => decide (f e.2 = k)) := by
        apply List.filter_congr
        intro e _
        by_cases hek : f e.2 = k
        · simp [hek, hk]
        · simp [hek]
      simp only [pyGet, hfc]

/-- C3 (witness): indexing `[{a:1},{a:1}]` on `.a` (distinct objects)
raises the duplicate-key error in exclusive mode and produces
`{1: [{a:1},{a:1}]}` in overlap mode. -/
theorem claim_C3_witness :
    (∃ v, map_elt_to_value (qField "a")
        [(0, [("a", Value.num 1)]), (1, [("a", Value.num 1)])] =
        .error (.duplicateKey v)) ∧
      map_elt_to_value_overlap (qField "a")
        [(0, [("a", Value.num 1)]), (1, [("a", Value.num 1)])] =
        .ok [(Value.num 1, [(0, [("a", Value.num 1)]), (1, [("a", Value.num 1)])])] := by
  have h := claim_C3_amended (qField "a")
    [(0, [("a", Value.num 1)]), (1, [("a", Value.num 1)])] (by decide) (by decide)
  refine ⟨h.1 ⟨(0, [("a", Value.num 1)]), by simp, (1, [("a", Value.num 1)]),
    by simp, by decide, rfl, by decide⟩, by rfl⟩

/-- C4 (counterexample): a record whose computed key is the non-null
scalar `0` is silently dropped by the dataset indexer, and one whose key
is the non-null scalar `""` is silently dropped by the render pipeline
indexer — the drop condition is Python falsiness, not nullness. -/
theorem claim_C4_counterexample :
    map_elt_to_value (qField "a") [(0, [("a", Value.num 0)])] = .ok [] ∧
      Value.num 0 ≠ Value.null ∧ (Value.num 0).isContainer = false ∧
      index_elements false (qField "a") [(0, ([("a", Value.str "")], []))] = .ok [] ∧
      Value.str "" ≠ Value.null :=
  ⟨rfl, by decide, rfl, rfl, by decide⟩

/-- C4 (amended): indexing drops exactly the records whose computed key
is *falsy* (null, `False`, `0`, `""`, `[]`, `{}`): on a successful run,
an identity-distinct record participates in the keyed view — under its
computed key and no other — precisely when its key is truthy.  This
holds for the dataset indexer in both modes and for the render
pipeline's final indexing. -/
theorem claim_C4_amended (f : Record → Value) (l : List Elt)
    (res : List (Value × Elt)) (h : map_elt_to_value f l = .ok res)
    (resov : List (Value × List Elt))
    (hov : map_elt_to_value_overlap f l = .ok resov)
    (g : Record → Value) (useBuild : Bool) (ds : List RElt)
    (res2 : List (Value × RElt)) (h2 : index_elements useBuild g ds = .ok res2)
    (hids : (l.map Prod.fst).Nodup) (hids2 : (ds.map Prod.fst).Nodup) :
    (∀ e ∈ l, ((∃ k, (k, e) ∈ res) ↔ (f e.2).truthy)) ∧
      (∀ e ∈ l, ∀ k, (k, e) ∈ res → k = f e.2) ∧
      (∀ e ∈ l, ((∃ k grp, (k, grp) ∈ resov ∧ e ∈ grp) ↔ (f e.2).truthy)) ∧
      (∀ e ∈ ds, ((∃ k, (k, e) ∈ res2) ↔ (g (pickNs useBuild e.2)).truthy)) := by
  have hdict : pyDictOf l = l := pyDictOf_eq_self hids
  have hdict2 : pyDictOf ds = ds := pyDictOf_eq_self hids2
  unfold map_elt_to_value at h
  unfold map_elt_to_value_overlap at hov
  unfold index_elements at h2
  rw [hdict] at h hov
  rw [hdict2] at h2
  obtain ⟨_, _, _, hres⟩ := index_loop_ok _ l [] res h
  obtain ⟨hnc, hresov⟩ := index_loop_overlap_ok _ l [] resov hov
  obtain ⟨_, _, _, hres2⟩ := index_loop_ok _ ds [] res2 h2
  rw [List.nil_append] at hres hres2
  refine ⟨?_, ?_, ?_, ?_⟩
  · intro e he
    constructor
    · rintro ⟨k, hk⟩
      rw [hres, mem_exclView] at hk
      exact hk.2.1
    · intro ht
      exact ⟨f e.2, by rw [hres, mem_exclView]; exact ⟨he, ht, rfl⟩⟩
  · intro e _ k hk
    rw [hres, mem_exclView] at hk
    exact hk.2.2
  · intro e he
    constructor
    · rintro ⟨k, grp, hmem, hin⟩
      rw [hresov] at hmem
      obtain ⟨hgrp, _⟩ := mem_ovlFold_eq_filter _ l k grp hmem
      rw [hgrp] at hin
      have hand := (List.mem_filter.mp hin).2
      simp only [Bool.and_eq_true] at hand
      exact hand.1
    · intro ht
      have hein : e ∈ l.filter
          (fun x : Elt => (f x.2).truthy && decide (f x.2 = f e.2)) :=
        List.mem_filter.mpr ⟨he, by simp [ht]⟩
      have hne : ¬(l.filter
          (fun x : Elt => (f x.2).truthy && decide (f x.2 = f e.2))).isEmpty := by
        intro hempty
        rw [List.isEmpty_iff] at hempty
        rw [hempty] at hein
        simp at hein
      have hget : pyGet resov (f e.2) = some (l.filter
          (fun x : Elt => (f x.2).truthy && decide (f x.2 = f e.2))) := by
        rw [hresov, pyGet_ovlFold]
        simp only [pyGet]
        simp [hne]
      exact ⟨f e.2, _, pyGet_mem hget, hein⟩
  · intro e he
    constructor
    · rintro ⟨k, hk⟩
      rw [hres2, mem_exclView] at hk
      exact hk.2.1
    · intro ht
      exact ⟨g (pickNs useBuild e.2), by rw [hres2, mem_exclView]; exact ⟨he, ht, rfl⟩⟩

/-- C4 (witness): `{a:1}` (truthy key `1`) participates in the exclusive
keyed view of the one-record dataset `[{a:1}]`. -/
theorem claim_C4_witness :
    ∃ k, (k, ((0 : Nat), [("a", Value.num 1)])) ∈
      [(Value.num 1, ((0 : Nat), [("a", Value.num 1)]))] := by
  have h := claim_C4_amended (qField "a") [((0 : Nat), [("a", Value.num 1)])]
    [(Value.num 1, ((0 : Nat), [("a", Value.num 1)]))] rfl
    [(Value.num 1, [((0 : Nat), [("a", Value.num 1)])])] rfl
    (qField "a") false [] [] rfl (by decide) (by decide)
  exact (h.1 _ (by simp)).mpr (by decide)

/-- The exclusive loop can only return a view, the non-scalar-key error
or the duplicate-key error. -/
theorem index_loop_kinds {E : Type} (key : E → Value) :
    ∀ (l : List E) (acc : List (Value × E)),
      (∃ res, index_loop key l acc = .ok res) ∨
        (∃ v, index_loop key l acc = .error (.nonScalarKey v) ∧
          v.truthy ∧ v.isContainer) ∨
        (∃ v, index_loop key l acc = .error (.duplicateKey v))
  | [], acc => .inl ⟨acc, rfl⟩
  | e :: rest, acc => by
      by_cases ht : (key e).truthy
      · by_cases hc : (key e).isContainer
        · refine .inr (.inl ⟨key e, ?_, ht, hc⟩)
          simp [index_loop, ht, hc]
        · simp only [index_loop, ht, if_true, hc, Bool.false_eq_true, if_false]
          by_cases hd : (pyGet acc (key e)).isSome
          · simp only [hd, if_true]
            exact .inr (.inr ⟨key e, rfl⟩)
          · simp only [hd, Bool.false_eq_true, if_false]
            exact index_loop_kinds key rest (acc ++ [(key e, e)])
      · simp only [index_loop, ht, Bool.false_eq_true, if_false]
        exact index_loop_kinds key rest acc

/-- Looking up a key after appending a single binding. -/
theorem pyGet_append_single {α β : Type} [DecidableEq α]
    (acc : List (α × β)) (k : α) (e : β) (v : α) :
    (pyGet (acc ++ [(k, e)]) v).isSome =
      ((pyGet acc v).isSome || decide (v = k)) := by
  rw [pyGet_append]
  cases hga : pyGet acc v with
  | some w => simp
  | none => by_cases hv : v = k <;> simp [pyGet, hv, Option.orElse]

/-- A duplicate-key failure means the offending truthy key was computed
by at least two elements (counting one already held by the
accumulator). -/
theorem index_loop_dup_count {E : Type} (key : E → Value) :
    ∀ (l : List E) (acc : List (Value × E)) (v : Value),
      index_loop key l acc = .error (.duplicateKey v) →
      v.truthy ∧
        2 ≤ l.countP (fun e => decide (key e = v)) +
          (if (pyGet acc v).isSome then 1 else 0)
  | [], _, v, h => by simp [index_loop] at h
  | e :: rest, acc, v, h => by
      rw [List.countP_cons]
      by_cases ht : (key e).truthy
      · by_cases hc : (key e).isContainer
        · simp [index_loop, ht, hc] at h
        · simp only [index_loop, ht, if_true, hc, Bool.false_eq_true, if_false] at h
          by_cases hd : (pyGet acc (key e)).isSome
          · simp only [hd, if_true] at h
            obtain rfl : key e = v := Err.duplicateKey.inj (Except.error.inj h)
            refine ⟨ht, ?_⟩
            rw [if_pos hd, if_pos (by simp)]
            omega
          · simp only [hd, Bool.false_eq_true, if_false] at h
            obtain ⟨htr, hcount⟩ := index_loop_dup_count key rest (acc ++ [(key e, e)]) v h
            refine ⟨htr, ?_⟩
            rw [pyGet_append_single] at hcount
            have hd0 : (pyGet acc (key e)).isSome = false := by
              simpa using hd
            by_cases hev : key e = v
            · subst hev
              rw [hd0, Bool.false_or, decide_eq_true rfl, if_pos rfl] at hcount
              rw [if_pos (by simp), hd0]
              simp only [Bool.false_eq_true, if_false]
              omega
            · have hvk : decide (v = key e) = false :=
                decide_eq_false (fun hh => hev hh.symm)
              rw [hvk, Bool.or_false] at hcount
              rw [if_neg (by simp [hev])]
              omega
      · simp only [index_loop, ht, Bool.false_eq_true, if_false] at h
        obtain ⟨htr, hcount⟩ := index_loop_dup_count key rest acc v h
        refine ⟨htr, ?_⟩
        have hev : ¬ key e = v := by
          rintro rfl
          exact ht htr
        rw [if_neg (by simp [hev])]
        omega

/-- C5 (counterexample): a computed key that is the *empty* list is
silently dropped (indexing succeeds), in both modes, contradicting
"always a fatal non-scalar-key error"; and when a duplicate scalar key
occurs before a non-empty container key, exclusive indexing fails with
the duplicate-key error, not the non-scalar-key error. -/
theorem claim_C5_counterexample :
    map_elt_to_value (qField "a") [(0, [("a", Value.list [])])] = .ok [] ∧
      map_elt_to_value_overlap (qField "a") [(0, [("a", Value.list [])])] = .ok [] ∧
      map_elt_to_value (qField "a")
        [(0, [("a", Value.num 1)]), (1, [("a", Value.num 1)]),
          (2, [("a", Value.list [Value.num 1])])] =
        .error (.duplicateKey (Value.num 1)) :=
  ⟨rfl, rfl, rfl⟩

/-- C5 (amended): whenever some identity-distinct record's computed key
is a *truthy* (non-empty) list or mapping, indexing never succeeds in
either mode: overlap mode fails with the non-scalar-key error, and
exclusive mode fails with the non-scalar-key error or with a
duplicate-key error raised by an earlier record.  (An empty list or
mapping key is falsy and is silently dropped instead.) -/
theorem claim_C5_amended (f : Record → Value) (l : List Elt)
    (hids : (l.map Prod.fst).Nodup)
    (hbad : ∃ e ∈ l, (f e.2).truthy ∧ (f e.2).isContainer) :
    (∀ res, map_elt_to_value f l ≠ .ok res) ∧
      (∀ res, map_elt_to_value_overlap f l ≠ .ok res) ∧
      ((∃ v, map_elt_to_value f l = .error (.nonScalarKey v) ∧
          v.truthy ∧ v.isContainer) ∨
        (∃ v, map_elt_to_value f l = .error (.duplicateKey v) ∧ v.truthy ∧
          2 ≤ l.countP (fun e => decide (f e.2 = v)))) ∧
      (∃ v, map_elt_to_value_overlap f l = .error (.nonScalarKey v) ∧
        v.isContainer ∧ v.truthy) := by
  have hdict : pyDictOf l = l := pyDictOf_eq_self hids
  obtain ⟨e0, he0, ht0, hc0⟩ := hbad
  have hexc : ∀ res, map_elt_to_value f l ≠ .ok res := by
    intro res hres
    unfold map_elt_to_value at hres
    rw [hdict] at hres
    obtain ⟨h1, _, _, _⟩ := index_loop_ok _ l [] res hres
    rw [h1 e0 he0 ht0] at hc0
    exact absurd hc0 (by decide)
  have hovl : ∀ res, map_elt_to_value_overlap f l ≠ .ok res := by
    intro res hres
    unfold map_elt_to_value_overlap at hres
    rw [hdict] at hres
    obtain ⟨h1, _⟩ := index_loop_overlap_ok _ l [] res hres
    rw [h1 e0 he0 ht0] at hc0
    exact absurd hc0 (by decide)
  refine ⟨hexc, hovl, ?_, ?_⟩
  · rcases index_loop_kinds (fun e : Elt => f e.2) l [] with
      ⟨res, hres⟩ | ⟨v, hv, hvt, hvc⟩ | ⟨v, hv⟩
    · exfalso
      apply hexc res
      unfold map_elt_to_value
      rw [hdict]
      exact hres
    · refine .inl ⟨v, ?_, hvt, hvc⟩
      unfold map_elt_to_value
      rw [hdict]
      exact hv
    · obtain ⟨hvt, hcount⟩ := index_loop_dup_count (fun e : Elt => f e.2) l [] v hv
      refine .inr ⟨v, ?_, hvt, ?_⟩
      · unfold map_elt_to_value
        rw [hdict]
        exact hv
      · simpa [pyGet] using hcount
  · rcases index_loop_overlap_ok_or_nonscalar (fun e : Elt => f e.2) l [] with
      ⟨res, hres⟩ | ⟨v, hv, hvt, hvc⟩
    · exfalso
      apply hovl res
      unfold map_elt_to_value_overlap
      rw [hdict]
      exact hres
    · refine ⟨v, ?_, hvc, hvt⟩
      unfold map_elt_to_value_overlap
      rw [hdict]
      exact hv

/-- C5 (witness): indexing `[{a:[1]}]` on `.a` fails in both modes:
in exclusive mode with the non-scalar-key error or a duplicate-key
error, and in overlap mode with the non-scalar-key error. -/
theorem claim_C5_witness :
    ((∃ v, map_elt_to_value (qField "a")
        [(0, [("a", Value.list [Value.num 1])])] = .error (.nonScalarKey v) ∧
        v.truthy ∧ v.isContainer) ∨
      (∃ v, map_elt_to_value (qField "a")
        [(0, [("a", Value.list [Value.num 1])])] = .error (.duplicateKey v) ∧
        v.truthy ∧
        2 ≤ [((0 : Nat), [("a", Value.list [Value.num 1])])].countP
          (fun e => decide (qField "a" e.2 = v)))) ∧
      (∃ v, map_elt_to_value_overlap (qField "a")
        [(0, [("a", Value.list [Value.num 1])])] = .error (.nonScalarKey v) ∧
        v.isContainer ∧ v.truthy) := by
  have h := claim_C5_amended (qField "a") [(0, [("a", Value.list [Value.num 1])])]
    (by decide)
    ⟨(0, [("a", Value.list [Value.num 1])]), by simp, by decide, by decide⟩
  exact ⟨h.2.2.1, h.2.2.2⟩

/-! ## Claim C10: indexing identifies records by object identity -/

/-- C10: since the indexers first build `{id(elt): elt}`, repeated
occurrences of the very same object (same identity tag, hence same
content) collapse: the keyed view of the dataset equals the keyed view
of the dataset with the repeated occurrences removed, in exclusive and
overlap mode and in the render pipeline's indexer alike.  In particular
exclusive indexing raises no duplicate-key error for such occurrences
and an overlap per-key list holds one entry for them. -/
theorem claim_C10 (f g : Record → Value) (useBuild : Bool)
    (l : List Elt) (ds : List RElt)
    (hl : ∀ e1 ∈ l, ∀ e2 ∈ l, e1.1 = e2.1 → e1.2 = e2.2)
    (hds : ∀ e1 ∈ ds, ∀ e2 ∈ ds, e1.1 = e2.1 → e1.2 = e2.2) :
    map_elt_to_value f l = map_elt_to_value f (firstOcc l) ∧
      map_elt_to_value_overlap f l = map_elt_to_value_overlap f (firstOcc l) ∧
      index_elements useBuild g ds = index_elements useBuild g (firstOcc ds) := by
  have hfl : pyDictOf l = firstOcc l := pyDictOf_eq_firstOcc l hl
  have hfl2 : pyDictOf (firstOcc l) = firstOcc l :=
    pyDictOf_eq_self (firstOcc_keys_nodup l)
  have hfd : pyDictOf ds = firstOcc ds := pyDictOf_eq_firstOcc ds hds
  have hfd2 : pyDictOf (firstOcc ds) = firstOcc ds :=
    pyDictOf_eq_self (firstOcc_keys_nodup ds)
  refine ⟨?_, ?_, ?_⟩
  · unfold map_elt_to_value
    rw [hfl, hfl2]
  · unfold map_elt_to_value_overlap
    rw [hfl, hfl2]
  · unfold index_elements
    rw [hfd, hfd2]

/-- C10 (witness): the dataset `[x, x]` holding the same object `{a:1}`
twice indexes exactly like `[x]`, with no duplicate-key error. -/
theorem claim_C10_witness :
    map_elt_to_value (qField "a")
        [(0, [("a", Value.num 1)]), (0, [("a", Value.num 1)])] =
      map_elt_to_value (qField "a")
        (firstOcc [(0, [("a", Value.num 1)]), (0, [("a", Value.num 1)])]) ∧
      map_elt_to_value (qField "a")
        [(0, [("a", Value.num 1)]), (0, [("a", Value.num 1)])] =
        .ok [(Value.num 1, (0, [("a", Value.num 1)]))] :=
  ⟨(claim_C10 (qField "a") (qField "a") false
      [(0, [("a", Value.num 1)]), (0, [("a", Value.num 1)])] []
      (by decide) (by decide)).1, by rfl⟩

/-! ## `DataSetLoader.Utils.merge_sets` / `merge_elts` (claims C1, C2) -/

/-- One merge input, as assembled by `create_dataset_from_merge`:
`(name, pivot query, dataset)`. -/
abbrev MSet := String × (Record → Value) × List Elt

/-- The first loop of `merge_sets`: index every input set exclusively,
wrapping a failure with the offending set's name and stopping there. -/
def indexAll : List MSet → Except Err (List (String × List (Value × Elt)))
  | [] => .ok []
  | (name, f, ds) :: rest =>
      match map_elt_to_value f ds with
      | .error e => .error (.wrap name e)
      | .ok view =>
          match indexAll rest with
          | .error e => .error e
          | .ok views => .ok ((name, view) :: views)

/-- `list(set(reduce(lambda x, y: x + y, [list(idx.keys()) ...])))`: the
union of all view keys.  The Python `set` iteration order is
unspecified; it is modelled as deduplication of the concatenation (every
claim proved about it is insensitive to the enumeration order). -/
def mergeIdxs (indxd_lst : List (String × List (Value × Elt))) : List Value :=
  ((indxd_lst.map (fun nv => nv.2.map Prod.fst)).flatten).dedup

/-- `DataSetLoader.Utils.merge_elts(elts)`: reverse the gathered records
and shallow-merge them with `dict.update`, so that the first-declared
set's fields win. -/
def merge_elts (elts : List Record) : Record :=
  (elts.reverse).foldl pyUpdate []

/-- `[(name, setcntnt.get(cmptd, {})) for name, setcntnt in indxd_lst]`:
the per-key gathered records (an absent key contributes `{}`). -/
def gatherAt (indxd_lst : List (String × List (Value × Elt))) (k : Value) :
    List (String × Record) :=
  indxd_lst.map (fun nv => (nv.1, ((pyGet nv.2 k).map (fun e => e.2)).getD []))

/-- One priority override
(`if k in dsdct.get(ds, {}): r[k] = dsdct[ds][k]`): `kd = (field, set)`. -/
def prioStep (dsdct : List (String × Record)) (r : Record) (kd : String × String) :
    Record :=
  match pyGet dsdct kd.2 with
  | none => r
  | some rcd =>
      match pyGet rcd kd.1 with
      | none => r
      | some v => pyInsert r kd.1 v

/-- The body of the per-key loop of `merge_sets`: base merge, the
`if r:` emptiness check, and the priority-key overrides. -/
def mergeKeyFn (indxd_lst : List (String × List (Value × Elt)))
    (keys : List (String × String)) (k : Value) : Option Record :=
  let elts := gatherAt indxd_lst k
  let r := merge_elts (elts.map Prod.snd)
  if r.isEmpty then none
  else some (keys.foldl (prioStep (pyDictOf elts)) r)

/-- `DataSetLoader.Utils.merge_sets(set_lst, keys)`.  An empty `set_lst`
makes the source's `reduce` call crash with an uncaught `TypeError`,
modelled by `Err.reduceCrash`. -/
def merge_sets (set_lst : List MSet) (keys : List (String × String)) :
    Except Err (List Record) :=
  match indexAll set_lst with
  | .error e => .error e
  | .ok indxd_lst =>
      if indxd_lst.isEmpty then .error .reduceCrash
      else .ok ((mergeIdxs indxd_lst).filterMap (mergeKeyFn indxd_lst keys))

/-! ### Lemmas about the shallow merge -/

/-- The first record of `rs` that has field `s` (each record read
back-to-front, as a `dict.update` would leave it), and its value. -/
def firstMatch (rs : List Record) (s : String) : Option Value :=
  match rs with
  | [] => none
  | r :: rest =>
      match pyGet r.reverse s with
      | some v => some v
      | none => firstMatch rest s

theorem firstMatch_append (l1 l2 : List Record) (s : String) :
    firstMatch (l1 ++ l2) s =
      match firstMatch l1 s with
      | some v => some v
      | none => firstMatch l2 s := by
  induction l1 with
  | nil => simp [firstMatch]
  | cons r rest ih =>
      simp only [List.cons_append, firstMatch]
      cases pyGet r.reverse s with
      | some v => simp
      | none => simpa using ih

theorem pyGet_foldl_pyUpdate (rs : List Record) (d : Record) (s : String) :
    pyGet (rs.foldl pyUpdate d) s =
      match firstMatch rs.reverse s with
      | some v => some v
      | none => pyGet d s := by
  induction rs generalizing d with
  | nil => simp [firstMatch]
  | cons r rest ih =>
      simp only [List.foldl_cons, List.reverse_cons, ih, firstMatch_append]
      cases h1 : firstMatch rest.reverse s with
      | some v => simp
      | none =>
          simp only [firstMatch, pyGet_pyUpdate]
          cases h2 : pyGet r.reverse s with
          | some v => simp
          | none => simp

/-- The value of any field of a shallow merge comes from the first
record of the (unreversed) gathered list that has the field. -/
theorem pyGet_merge_elts (rs : List Record) (s : String) :
    pyGet (merge_elts rs) s = firstMatch rs s := by
  unfold merge_elts
  rw [pyGet_foldl_pyUpdate, List.reverse_reverse]
  cases h : firstMatch rs s <;> simp [pyGet]

theorem pyGet_reverse_isSome {α β : Type} [DecidableEq α] (d : List (α × β)) (k : α) :
    (pyGet d.reverse k).isSome = (pyGet d k).isSome := by
  by_cases h : k ∈ d.map Prod.fst
  · have h2 : k ∈ d.reverse.map Prod.fst := by
      rw [List.map_reverse, List.mem_reverse]
      exact h
    rw [Bool.eq_iff_iff, pyGet_isSome, pyGet_isSome]
    exact ⟨fun _ => h, fun _ => h2⟩
  · have h2 : ¬k ∈ d.reverse.map Prod.fst := by
      rw [List.map_reverse, List.mem_reverse]
      exact h
    rw [pyGet_eq_none.mpr h, pyGet_eq_none.mpr h2]

theorem firstMatch_eq_none (rs : List Record) (s : String) :
    firstMatch rs s = none ↔ ∀ r ∈ rs, pyGet r s = none := by
  induction rs with
  | nil => simp [firstMatch]
  | cons r rest ih =>
      simp only [firstMatch]
      cases h : pyGet r.reverse s with
      | some v =>
          have : (pyGet r s).isSome := by
            rw [← pyGet_reverse_isSome, h]
            rfl
          simp only [List.mem_cons]
          constructor
          · intro hh
            exact absurd hh (by simp)
          · intro hh
            rw [hh r (Or.inl rfl)] at this
            simp at this
      | none =>
          have hr : pyGet r s = none := by
            have := pyGet_reverse_isSome r s
            rw [h] at this
            cases hg : pyGet r s
            · rfl
            · rw [hg] at this
              simp at this
          simp [ih, hr]

/-- Under per-record key uniqueness (Python dicts), `firstMatch` is the
first record having the field, read normally. -/
theorem firstMatch_eq_findSome (rs : List Record) (s : String)
    (h : ∀ r ∈ rs, (r.map Prod.fst).Nodup) :
    firstMatch rs s = rs.findSome? (fun r => pyGet r s) := by
  induction rs with
  | nil => simp [firstMatch]
  | cons r rest ih =>
      simp only [firstMatch, List.findSome?_cons]
      rw [pyGet_reverse_of_nodup (h r (List.mem_cons_self r rest))]
      cases pyGet r s with
      | some v => simp
      | none => simpa using ih (fun a ha => h a (List.mem_cons_of_mem r ha))

/-! ### Lemmas about the priority overrides -/

theorem pyInsert_map_fst {α β : Type} [DecidableEq α] (d : List (α × β)) (k : α) (v : β) :
    (pyInsert d k v).map Prod.fst =
      if k ∈ d.map Prod.fst then d.map Prod.fst else d.map Prod.fst ++ [k] := by
  induction d with
  | nil => simp [pyInsert]
  | cons hd tl ih =>
      obtain ⟨k0, v0⟩ := hd
      by_cases h : k = k0
      · simp [pyInsert, h]
      · simp only [pyInsert, if_neg h, List.map_cons, List.mem_cons, ih]
        by_cases h2 : k ∈ tl.map Prod.fst <;> simp [h2, h]

theorem mem_pyInsert {α β : Type} [DecidableEq α] {k : α} {v : β} {x : α × β} :
    ∀ (d : List (α × β)), x ∈ pyInsert d k v → x ∈ d ∨ x = (k, v)
  | [], h => by simpa [pyInsert] using h
  | (k0, v0) :: tl, h => by
      by_cases hk : k = k0
      · subst hk
        simp [pyInsert] at h
        rcases h with h | h
        · exact .inr h
        · exact .inl (List.mem_cons_of_mem _ h)
      · simp [pyInsert, hk] at h
        rcases h with rfl | h
        · exact .inl (List.mem_cons_self _ _)
        · rcases mem_pyInsert tl h with h2 | h2
          · exact .inl (List.mem_cons_of_mem _ h2)
          · exact .inr h2

theorem mem_foldl_pyInsert {α β : Type} [DecidableEq α] (l : List (α × β)) :
    ∀ (acc : List (α × β)) (x : α × β),
      x ∈ l.foldl (fun d kv => pyInsert d kv.1 kv.2) acc → x ∈ acc ∨ x ∈ l := by
  induction l with
  | nil => intro acc x h; exact .inl h
  | cons e rest ih =>
      intro acc x h
      simp only [List.foldl_cons] at h
      rcases ih (pyInsert acc e.1 e.2) x h with h2 | h2
      · rcases mem_pyInsert _ h2 with h3 | h3
        · exact .inl h3
        · exact .inr (h3 ▸ List.mem_cons_self _ _)
      · exact .inr (List.mem_cons_of_mem _ h2)

theorem mem_pyDictOf {α β : Type} [DecidableEq α] {l : List (α × β)} {x : α × β}
    (h : x ∈ pyDictOf l) : x ∈ l := by
  rcases mem_foldl_pyInsert l [] x h with h2 | h2
  · simp at h2
  · exact h2

theorem pyInsert_ne_nil {α β : Type} [DecidableEq α] (d : List (α × β)) (k : α) (v : β) :
    pyInsert d k v ≠ [] := by
  cases d with
  | nil => simp [pyInsert]
  | cons hd tl =>
      obtain ⟨k0, v0⟩ := hd
      by_cases h : k = k0 <;> simp [pyInsert, h]

theorem foldl_pyInsert_ne_nil {α β : Type} [DecidableEq α] :
    ∀ (l : List (α × β)) (acc : List (α × β)), acc ≠ [] →
      l.foldl (fun d kv => pyInsert d kv.1 kv.2) acc ≠ []
  | [], _, h => h
  | _ :: rest, acc, _ =>
      foldl_pyInsert_ne_nil rest _ (pyInsert_ne_nil acc _ _)

theorem pyUpdate_eq_nil {α β : Type} [DecidableEq α] (d e : List (α × β)) :
    pyUpdate d e = [] ↔ d = [] ∧ e = [] := by
  cases e with
  | nil => simp [pyUpdate]
  | cons x tl =>
      simp only [pyUpdate, List.foldl_cons]
      constructor
      · intro h
        exact absurd h (foldl_pyInsert_ne_nil tl _ (pyInsert_ne_nil _ _ _))
      · rintro ⟨_, h⟩
        exact absurd h (by simp)

theorem foldl_pyUpdate_eq_nil :
    ∀ (l : List Record) (acc : Record), l.foldl pyUpdate acc = [] → acc = []
  | [], _, h => h
  | _ :: rest, _, h =>
      ((pyUpdate_eq_nil _ _).mp (foldl_pyUpdate_eq_nil rest _ h)).1

/-- The shallow merge is empty exactly when every gathered record is. -/
theorem merge_elts_eq_nil (rs : List Record) :
    merge_elts rs = [] ↔ ∀ r ∈ rs, r = [] := by
  unfold merge_elts
  rw [show (∀ r ∈ rs, r = []) ↔ ∀ r ∈ rs.reverse, r = [] by simp]
  generalize rs.reverse = l
  induction l with
  | nil => simp
  | cons r rest ih =>
      simp only [List.foldl_cons]
      constructor
      · intro h
        have h1 : pyUpdate [] r = [] := foldl_pyUpdate_eq_nil rest _ h
        have h2 : r = [] := ((pyUpdate_eq_nil _ _).mp h1).2
        intro x hx
        rcases List.mem_cons.mp hx with rfl | hx
        · exact h2
        · have h3 : rest.foldl pyUpdate (pyUpdate [] r) = [] := h
          rw [h1] at h3
          exact (ih.mp h3) x hx
      · intro h
        have hr : r = [] := h r (List.mem_cons_self _ _)
        have hrest : ∀ x ∈ rest, x = [] := fun x hx => h x (List.mem_cons_of_mem _ hx)
        rw [hr, show pyUpdate [] [] = ([] : Record) from rfl]
        exact ih.mpr hrest

theorem prioStep_map_fst (dsdct : List (String × Record)) (r : Record)
    (kd : String × String)
    (h : ∀ rcd, pyGet dsdct kd.2 = some rcd → ∀ v, pyGet rcd kd.1 = some v →
      kd.1 ∈ r.map Prod.fst) :
    (prioStep dsdct r kd).map Prod.fst = r.map Prod.fst := by
  cases hd : pyGet dsdct kd.2 with
  | none => simp [prioStep, hd]
  | some rcd =>
      cases hv : pyGet rcd kd.1 with
      | none => simp [prioStep, hd, hv]
      | some v =>
          simp only [prioStep, hd, hv]
          rw [pyInsert_map_fst, if_pos (h rcd hd v hv)]

theorem prioFold_map_fst (dsdct : List (String × Record)) (keys : List (String × String))
    (r : Record)
    (h : ∀ kd ∈ keys, ∀ rcd, pyGet dsdct kd.2 = some rcd →
      ∀ v, pyGet rcd kd.1 = some v → kd.1 ∈ r.map Prod.fst) :
    (keys.foldl (prioStep dsdct) r).map Prod.fst = r.map Prod.fst := by
  induction keys generalizing r with
  | nil => rfl
  | cons kd rest ih =>
      simp only [List.foldl_cons]
      have hstep := prioStep_map_fst dsdct r kd (h kd (List.mem_cons_self _ _))
      rw [ih (prioStep dsdct r kd) (fun kd2 hkd2 rcd hrcd v hv => by
        rw [hstep]
        exact h kd2 (List.mem_cons_of_mem _ hkd2) rcd hrcd v hv), hstep]

theorem prioStep_get_ne (dsdct : List (String × Record)) (r : Record)
    (kd : String × String) (s : String) (h : s ≠ kd.1) :
    pyGet (prioStep dsdct r kd) s = pyGet r s := by
  cases hd : pyGet dsdct kd.2 with
  | none => simp [prioStep, hd]
  | some rcd =>
      cases hv : pyGet rcd kd.1 with
      | none => simp [prioStep, hd, hv]
      | some v =>
          simp only [prioStep, hd, hv]
          exact pyGet_pyInsert_ne r v h

theorem prioFold_get_notin (dsdct : List (String × Record)) (keys : List (String × String))
    (r : Record) (s : String) (h : s ∉ keys.map Prod.fst) :
    pyGet (keys.foldl (prioStep dsdct) r) s = pyGet r s := by
  induction keys generalizing r with
  | nil => rfl
  | cons kd rest ih =>
      simp only [List.map_cons, List.mem_cons, not_or] at h
      simp only [List.foldl_cons]
      rw [ih (prioStep dsdct r kd) h.2, prioStep_get_ne dsdct r kd s h.1]

theorem prioFold_get_prio (dsdct : List (String × Record)) (keys : List (String × String))
    (r : Record) (s ds : String) (hmem : (s, ds) ∈ keys)
    (hn : (keys.map Prod.fst).Nodup) :
    pyGet (keys.foldl (prioStep dsdct) r) s =
      match (pyGet dsdct ds).bind (fun rcd => pyGet rcd s) with
      | some v => some v
      | none => pyGet r s := by
  induction keys generalizing r with
  | nil => simp at hmem
  | cons kd rest ih =>
      simp only [List.map_cons, List.nodup_cons] at hn
      rcases List.mem_cons.mp hmem with rfl | hmem2
      · have hnotin : s ∉ rest.map Prod.fst := by simpa using hn.1
        simp only [List.foldl_cons]
        rw [prioFold_get_notin dsdct rest _ s hnotin]
        cases hd : pyGet dsdct ds with
        | none => simp [prioStep, hd]
        | some rcd =>
            cases hv : pyGet rcd s with
            | none => simp [prioStep, hd, hv]
            | some v => simp [prioStep, hd, hv, pyGet_pyInsert_self]
      · have hne : s ≠ kd.1 := by
          rintro rfl
          exact hn.1 (List.mem_map.mpr ⟨(kd.1, ds), hmem2, rfl⟩)
        simp only [List.foldl_cons]
        rw [ih (prioStep dsdct r kd) hmem2 hn.2, prioStep_get_ne dsdct r kd s hne]

/-! ### Lemmas about `indexAll` and the key union -/

theorem indexAll_ne_nil (set_lst : List MSet)
    (il : List (String × List (Value × Elt)))
    (hne : set_lst ≠ []) (h : indexAll set_lst = .ok il) : il ≠ [] := by
  cases set_lst with
  | nil => exact absurd rfl hne
  | cons st rest =>
      obtain ⟨name, f, ds⟩ := st
      simp only [indexAll] at h
      cases h1 : map_elt_to_value f ds with
      | error e => rw [h1] at h; simp at h
      | ok view =>
          rw [h1] at h
          cases h2 : indexAll rest with
          | error e => rw [h2] at h; simp at h
          | ok views =>
              rw [h2] at h
              simp only [Except.ok.injEq] at h
              rw [← h]
              simp

theorem indexAll_mem_view :
    ∀ (set_lst : List MSet) (il : List (String × List (Value × Elt))),
      indexAll set_lst = .ok il →
      ∀ nv ∈ il, ∀ (k : Value) (e : Elt), pyGet nv.2 k = some e →
        ∃ st ∈ set_lst, e ∈ st.2.2
  | [], il, h => by
      simp only [indexAll, Except.ok.injEq] at h
      subst h
      intro nv hnv
      simp at hnv
  | (name, f, ds) :: rest, il, h => by
      simp only [indexAll] at h
      cases h1 : map_elt_to_value f ds with
      | error e => rw [h1] at h; simp at h
      | ok view =>
          rw [h1] at h
          cases h2 : indexAll rest with
          | error e2 => rw [h2] at h; simp at h
          | ok views =>
              rw [h2] at h
              simp only [Except.ok.injEq] at h
              subst h
              intro nv hnv k e hget
              rcases List.mem_cons.mp hnv with rfl | hnv2
              · have hmem : (k, e) ∈ view := pyGet_mem hget
                unfold map_elt_to_value at h1
                obtain ⟨_, _, _, hview⟩ := index_loop_ok _ _ [] view h1
                rw [hview, List.nil_append, mem_exclView] at hmem
                exact ⟨(name, f, ds), List.mem_cons_self _ _,
                  mem_pyDictOf hmem.1⟩
              · obtain ⟨st, hst, hest⟩ :=
                  indexAll_mem_view rest views h2 nv hnv2 k e hget
                exact ⟨st, List.mem_cons_of_mem _ hst, hest⟩

theorem mergeIdxs_nodup (il : List (String × List (Value × Elt))) :
    (mergeIdxs il).Nodup :=
  List.nodup_dedup _

theorem mem_mergeIdxs (il : List (String × List (Value × Elt))) (k : Value) :
    k ∈ mergeIdxs il ↔ ∃ nv ∈ il, (pyGet nv.2 k).isSome := by
  unfold mergeIdxs
  rw [List.mem_dedup, List.mem_flatten]
  constructor
  · rintro ⟨l, hl, hkl⟩
    obtain ⟨nv, hnv, rfl⟩ := List.mem_map.mp hl
    exact ⟨nv, hnv, pyGet_isSome.mpr hkl⟩
  · rintro ⟨nv, hnv, hk⟩
    exact ⟨nv.2.map Prod.fst, List.mem_map_of_mem _ hnv, pyGet_isSome.mp hk⟩

theorem merge_sets_eq (set_lst : List MSet) (keys : List (String × String))
    (il : List (String × List (Value × Elt)))
    (hne : set_lst ≠ []) (hidx : indexAll set_lst = .ok il) :
    merge_sets set_lst keys =
      .ok ((mergeIdxs il).filterMap (mergeKeyFn il keys)) := by
  unfold merge_sets
  rw [hidx]
  cases hil : il with
  | nil => exact absurd hil (indexAll_ne_nil set_lst il hne hidx)
  | cons nv rest => simp

/-- The shape of the per-key merge body (the `let`s unfolded). -/
theorem mergeKeyFn_eq (il : List (String × List (Value × Elt)))
    (keys : List (String × String)) (k : Value) :
    mergeKeyFn il keys k =
      if (merge_elts ((gatherAt il k).map Prod.snd)).isEmpty then none
      else some (keys.foldl (prioStep (pyDictOf (gatherAt il k)))
        (merge_elts ((gatherAt il k).map Prod.snd))) := rfl

theorem gatherAt_map_snd (il : List (String × List (Value × Elt))) (k : Value) :
    (gatherAt il k).map Prod.snd =
      il.map (fun nv => ((pyGet nv.2 k).map (fun e => e.2)).getD []) := by
  simp [gatherAt]

/-! ## Claim C1: merge as outer join -/

/-- The jq default query `.s // d`: the value of field `s` unless it is
null or false, in which case `d`. -/
def qDefault (s : String) (d : Value) (r : Record) : Value :=
  let v := (pyGet r s).getD Value.null
  if v = Value.null ∨ v = Value.bool false then d else v

/-- C1 (counterexample): a single input set holding the empty record
`{}` under pivot `.id // "k"` produces the keyed view `{"k": {}}` — the
key `"k"` is present in an input view — yet the merge output is empty:
the `if r:` guard skips a key whose merged record is empty, so not every
key of the key-union yields an output record. -/
theorem claim_C1_counterexample :
    indexAll [("s", qDefault "id" (Value.str "k"), [(0, ([] : Record))])] =
      .ok [("s", [(Value.str "k", (0, ([] : Record)))])] ∧
      merge_sets [("s", qDefault "id" (Value.str "k"), [(0, ([] : Record))])] [] =
        .ok [] :=
  ⟨rfl, rfl⟩

/-- C1 (amended): when every input set indexes successfully, the merge
succeeds and outputs exactly one record per key of the key-union whose
gathered records are not all empty (an outer join over the key-union:
keys absent from some sets are still included, the absent sets
contributing nothing; a key all of whose gathered records are empty is
skipped).  The output record's fields are exactly the union of the
fields of the sets' records at that key. -/
theorem claim_C1_amended (set_lst : List MSet) (keys : List (String × String))
    (il : List (String × List (Value × Elt)))
    (hne : set_lst ≠ []) (hidx : indexAll set_lst = .ok il) :
    merge_sets set_lst keys = .ok ((mergeIdxs il).filterMap (mergeKeyFn il keys)) ∧
      (mergeIdxs il).Nodup ∧
      (∀ k, k ∈ mergeIdxs il ↔ ∃ nv ∈ il, (pyGet nv.2 k).isSome) ∧
      (∀ k, (mergeKeyFn il keys k).isSome ↔
        ∃ nv ∈ il, ∃ e, pyGet nv.2 k = some e ∧ e.2 ≠ []) ∧
      (∀ k r, mergeKeyFn il keys k = some r →
        ∀ s, (pyGet r s).isSome ↔
          ∃ nv ∈ il, ∃ e, pyGet nv.2 k = some e ∧ (pyGet e.2 s).isSome) := by
  refine ⟨merge_sets_eq set_lst keys il hne hidx, mergeIdxs_nodup il,
    mem_mergeIdxs il, ?_, ?_⟩
  · intro k
    rw [mergeKeyFn_eq]
    by_cases hemp : (merge_elts ((gatherAt il k).map Prod.snd)).isEmpty
    · rw [if_pos hemp]
      simp only [Option.isSome_none, Bool.false_eq_true, false_iff]
      rintro ⟨nv, hnv, e, hget, hne2⟩
      rw [List.isEmpty_iff] at hemp
      have hall := (merge_elts_eq_nil _).mp hemp
      have hmem : e.2 ∈ (gatherAt il k).map Prod.snd := by
        rw [gatherAt_map_snd]
        refine List.mem_map.mpr ⟨nv, hnv, ?_⟩
        rw [hget]
        rfl
      exact hne2 (hall _ hmem)
    · rw [if_neg hemp]
      simp only [Option.isSome_some, true_iff]
      have hne3 : merge_elts ((gatherAt il k).map Prod.snd) ≠ [] := by
        intro hh
        rw [hh] at hemp
        simp at hemp
      have hnall : ¬∀ rc ∈ (gatherAt il k).map Prod.snd, rc = [] :=
        fun hall => hne3 ((merge_elts_eq_nil _).mpr hall)
      push_neg at hnall
      obtain ⟨rc, hrc, hrcne⟩ := hnall
      rw [gatherAt_map_snd] at hrc
      obtain ⟨nv, hnv, hrceq⟩ := List.mem_map.mp hrc
      subst hrceq
      cases hget : pyGet nv.2 k with
      | none =>
          rw [hget] at hrcne
          exact absurd rfl hrcne
      | some e =>
          rw [hget] at hrcne
          exact ⟨nv, hnv, e, hget, by simpa using hrcne⟩
  · intro k r hk s
    rw [mergeKeyFn_eq] at hk
    by_cases hemp : (merge_elts ((gatherAt il k).map Prod.snd)).isEmpty
    · rw [if_pos hemp] at hk
      exact absurd hk (by simp)
    · rw [if_neg hemp] at hk
      obtain rfl := Option.some.inj hk
      have hfields : ∀ kd ∈ keys, ∀ rcd,
          pyGet (pyDictOf (gatherAt il k)) kd.2 = some rcd →
          ∀ v, pyGet rcd kd.1 = some v →
          kd.1 ∈ (merge_elts ((gatherAt il k).map Prod.snd)).map Prod.fst := by
        intro kd _ rcd hrcd v hv
        have hmem : (kd.2, rcd) ∈ gatherAt il k := mem_pyDictOf (pyGet_mem hrcd)
        have hrc : rcd ∈ (gatherAt il k).map Prod.snd :=
          List.mem_map.mpr ⟨(kd.2, rcd), hmem, rfl⟩
        have hfm : firstMatch ((gatherAt il k).map Prod.snd) kd.1 ≠ none := by
          rw [ne_eq, firstMatch_eq_none]
          push_neg
          exact ⟨rcd, hrc, by rw [hv]; simp⟩
        rw [← pyGet_isSome, pyGet_merge_elts]
        exact Option.isSome_iff_ne_none.mpr hfm
      have hfst := prioFold_map_fst (pyDictOf (gatherAt il k)) keys
        (merge_elts ((gatherAt il k).map Prod.snd)) hfields
      rw [pyGet_isSome, hfst, ← pyGet_isSome, pyGet_merge_elts]
      rw [Option.isSome_iff_ne_none]
      constructor
      · intro hfmne
        rw [ne_eq, firstMatch_eq_none] at hfmne
        push_neg at hfmne
        obtain ⟨rc, hrc, hrcs⟩ := hfmne
        rw [gatherAt_map_snd] at hrc
        obtain ⟨nv, hnv, hrceq⟩ := List.mem_map.mp hrc
        subst hrceq
        cases hget : pyGet nv.2 k with
        | none =>
            rw [hget] at hrcs
            exact absurd rfl hrcs
        | some e =>
            rw [hget] at hrcs
            exact ⟨nv, hnv, e, hget, Option.isSome_iff_ne_none.mpr (by simpa using hrcs)⟩
      · rintro ⟨nv, hnv, e, hget, hes⟩
        have hrc : e.2 ∈ (gatherAt il k).map Prod.snd := by
          rw [gatherAt_map_snd]
          refine List.mem_map.mpr ⟨nv, hnv, ?_⟩
          rw [hget]
          rfl
        intro hfm
        rw [firstMatch_eq_none] at hfm
        rw [hfm e.2 hrc] at hes
        exact absurd hes (by simp)

/-- C1 (witness): merging A={id:1,a:"x"}, B={id:1,b:"y"}, C={id:2,c:"z"}
on `.id` succeeds and yields exactly two output records — the key-union
{1, 2} drives the outer join. -/
theorem claim_C1_witness :
    merge_sets
        [("A", qField "id", [(0, [("id", Value.num 1), ("a", Value.str "x")])]),
          ("B", qField "id", [(1, [("id", Value.num 1), ("b", Value.str "y")])]),
          ("C", qField "id", [(2, [("id", Value.num 2), ("c", Value.str "z")])])]
        [] =
      .ok [[("id", Value.num 1), ("b", Value.str "y"), ("a", Value.str "x")],
        [("id", Value.num 2), ("c", Value.str "z")]] ∧
      ([[("id", Value.num 1), ("b", Value.str "y"), ("a", Value.str "x")],
        [("id", Value.num 2), ("c", Value.str "z")]] : List Record).length = 2 := by
  have h := claim_C1_amended
    [("A", qField "id", [(0, [("id", Value.num 1), ("a", Value.str "x")])]),
      ("B", qField "id", [(1, [("id", Value.num 1), ("b", Value.str "y")])]),
      ("C", qField "id", [(2, [("id", Value.num 2), ("c", Value.str "z")])])]
    []
    [("A", [(Value.num 1, (0, [("id", Value.num 1), ("a", Value.str "x")]))]),
      ("B", [(Value.num 1, (1, [("id", Value.num 1), ("b", Value.str "y")]))]),
      ("C", [(Value.num 2, (2, [("id", Value.num 2), ("c", Value.str "z")]))])]
    (List.cons_ne_nil _ _) rfl
  exact ⟨h.1, rfl⟩

/-! ## Claim C2: merge conflict resolution and priorities -/

/-- C2: for every key of the merge output, a field not listed in the
priorities mapping carries the value of the first-declared set whose
record at that key has the field (the gathered records are reversed and
shallow-merged, so earlier-declared sets overwrite later ones); a field
listed in the priorities mapping instead carries the value from the
named set's record at that key whenever that record has the field, and
falls back to the first-declared value otherwise.  (Records are Python
dicts: their keys are assumed pairwise distinct, as is the priorities
mapping's key set.) -/
theorem claim_C2 (set_lst : List MSet) (keys : List (String × String))
    (il : List (String × List (Value × Elt)))
    (hne : set_lst ≠ []) (hidx : indexAll set_lst = .ok il)
    (hrecn : ∀ st ∈ set_lst, ∀ e ∈ st.2.2, (e.2.map Prod.fst).Nodup)
    (hpk : (keys.map Prod.fst).Nodup) :
    merge_sets set_lst keys = .ok ((mergeIdxs il).filterMap (mergeKeyFn il keys)) ∧
      ∀ k r, mergeKeyFn il keys k = some r → ∀ s : String,
        (s ∉ keys.map Prod.fst →
          pyGet r s =
            ((gatherAt il k).map Prod.snd).findSome? (fun rc => pyGet rc s)) ∧
        (∀ ds, (s, ds) ∈ keys →
          pyGet r s =
            ((pyGet (pyDictOf (gatherAt il k)) ds).bind
                (fun rcd => pyGet rcd s)).orElse
              (fun _ =>
                ((gatherAt il k).map Prod.snd).findSome? (fun rc => pyGet rc s))) := by
  refine ⟨merge_sets_eq set_lst keys il hne hidx, ?_⟩
  intro k r hk s
  rw [mergeKeyFn_eq] at hk
  by_cases hemp : (merge_elts ((gatherAt il k).map Prod.snd)).isEmpty
  · rw [if_pos hemp] at hk
    exact absurd hk (by simp)
  · rw [if_neg hemp] at hk
    obtain rfl := Option.some.inj hk
    have hgn : ∀ rc ∈ (gatherAt il k).map Prod.snd, (rc.map Prod.fst).Nodup := by
      intro rc hrc
      rw [gatherAt_map_snd] at hrc
      obtain ⟨nv, hnv, hrceq⟩ := List.mem_map.mp hrc
      subst hrceq
      cases hget : pyGet nv.2 k with
      | none => simp
      | some e =>
          obtain ⟨st, hst, hest⟩ :=
            indexAll_mem_view set_lst il hidx nv hnv k e hget
          simpa using hrecn st hst e hest
    have hbase : pyGet (merge_elts ((gatherAt il k).map Prod.snd)) s =
        ((gatherAt il k).map Prod.snd).findSome? (fun rc => pyGet rc s) := by
      rw [pyGet_merge_elts]
      exact firstMatch_eq_findSome _ s hgn
    constructor
    · intro hnotin
      rw [prioFold_get_notin _ keys _ s hnotin, hbase]
    · intro ds hmem
      rw [prioFold_get_prio _ keys _ s ds hmem hpk]
      cases hb : (pyGet (pyDictOf (gatherAt il k)) ds).bind (fun rcd => pyGet rcd s) with
      | some v => simp [hb]
      | none => simp [hb, hbase]

/-- C2 (witness): merging left={id:1,y:"lft"} and right={id:1,y:"rgt"}
with priority `{y: "right"}` yields `y = "rgt"` (the priority overrides),
and with no priority yields `y = "lft"` (first-declared set wins). -/
theorem claim_C2_witness :
    pyGet [("id", Value.num 1), ("y", Value.str "rgt")] "y" =
        some (Value.str "rgt") ∧
      pyGet [("id", Value.num 1), ("y", Value.str "lft")] "y" =
        some (Value.str "lft") ∧
      mergeKeyFn
          [("left", [(Value.num 1, (0, [("id", Value.num 1), ("y", Value.str "lft")]))]),
            ("right", [(Value.num 1, (1, [("id", Value.num 1), ("y", Value.str "rgt")]))])]
          [("y", "right")] (Value.num 1) =
        some [("id", Value.num 1), ("y", Value.str "rgt")] ∧
      mergeKeyFn
          [("left", [(Value.num 1, (0, [("id", Value.num 1), ("y", Value.str "lft")]))]),
            ("right", [(Value.num 1, (1, [("id", Value.num 1), ("y", Value.str "rgt")]))])]
          [] (Value.num 1) =
        some [("id", Value.num 1), ("y", Value.str "lft")] := by
  have hp := claim_C2
    [("left", qField "id", [(0, [("id", Value.num 1), ("y", Value.str "lft")])]),
      ("right", qField "id", [(1, [("id", Value.num 1), ("y", Value.str "rgt")])])]
    [("y", "right")]
    [("left", [(Value.num 1, (0, [("id", Value.num 1), ("y", Value.str "lft")]))]),
      ("right", [(Value.num 1, (1, [("id", Value.num 1), ("y", Value.str "rgt")]))])]
    (List.cons_ne_nil _ _) rfl
    (by
      intro st hst e he
      simp only [List.mem_cons, List.not_mem_nil, or_false] at hst
      rcases hst with rfl | rfl
      · simp only [List.mem_cons, List.not_mem_nil, or_false] at he
        subst he
        decide
      · simp only [List.mem_cons, List.not_mem_nil, or_false] at he
        subst he
        decide)
    (by decide)
  have hq := claim_C2
    [("left", qField "id", [(0, [("id", Value.num 1), ("y", Value.str "lft")])]),
      ("right", qField "id", [(1, [("id", Value.num 1), ("y", Value.str "rgt")])])]
    []
    [("left", [(Value.num 1, (0, [("id", Value.num 1), ("y", Value.str "lft")]))]),
      ("right", [(Value.num 1, (1, [("id", Value.num 1), ("y", Value.str "rgt")]))])]
    (List.cons_ne_nil _ _) rfl
    (by
      intro st hst e he
      simp only [List.mem_cons, List.not_mem_nil, or_false] at hst
      rcases hst with rfl | rfl
      · simp only [List.mem_cons, List.not_mem_nil, or_false] at he
        subst he
        decide
      · simp only [List.mem_cons, List.not_mem_nil, or_false] at he
        subst he
        decide)
    (by decide)
  refine ⟨?_, rfl, rfl, rfl⟩
  have h2 := ((hp.2 (Value.num 1) [("id", Value.num 1), ("y", Value.str "rgt")]
    rfl "y").2 "right" (by simp))
  exact h2.trans (by rfl)

/-! ## `DataSetLoader.Utils.decorate_dataset` / `decorate_element` (claim C6) -/

/-- `DataSetLoader.Utils.decorate_element(elt, data)`: shallow-copy
`elt` (`new_elt.update(elt)`, which is `pyUpdate [] elt`) and write each
anchored value over it. -/
def decorate_element (elt : Record) (data : List (String × Value)) : Record :=
  data.foldl (fun ne ad => pyInsert ne ad.1 ad.2) (pyUpdate [] elt)

/-- A decorator's matches, as the Python list-of-dicts value stored
under the anchor. -/
def eltsToValue (l : List Elt) : Value :=
  Value.list (l.map (fun e => Value.obj e.2))

/-- The decorator indexing loop of `decorate_dataset`: every decorator
set is indexed in overlap mode; a failure is wrapped and re-raised. -/
def indexDecorators :
    List (String × (Record → Value) × List Elt) →
      Except Err (List (String × List (Value × List Elt)))
  | [] => .ok []
  | (anchor, f, ds) :: rest =>
      match map_elt_to_value_overlap f ds with
      | .error e => .error (.wrap anchor e)
      | .ok view =>
          match indexDecorators rest with
          | .error e => .error e
          | .ok views => .ok ((anchor, view) :: views)

/-- `sublst = [(anchor, ds.get(idx)) for anchor, ds in idx_add_set_lst
if idx is not None and ds.get(idx)]`: the decorators with at least one
match at this key, paired with their match lists. -/
def decorate_sublst (decViews : List (String × List (Value × List Elt)))
    (idx : Value) : List (String × Value) :=
  (decViews.filter (fun ad =>
      decide (idx ≠ Value.null) && !((pyGet ad.2 idx).getD []).isEmpty)).map
    (fun ad => (ad.1, eltsToValue ((pyGet ad.2 idx).getD [])))

/-- `DataSetLoader.Utils.decorate_dataset`, with the name-resolution of
`config` and `data_sets` already performed (the claim is about the
decoration itself, not the lookup): `exclusive` comes from
`config["main"].get("exclusive", True)`. -/
def decorate_dataset (exclusive : Bool) (mainF : Record → Value) (mainDs : List Elt)
    (decorators : List (String × (Record → Value) × List Elt)) :
    Except Err (List Record) :=
  if exclusive then
    match map_elt_to_value mainF mainDs with
    | .error e => .error (.wrap "main" e)
    | .ok mainView =>
        match indexDecorators decorators with
        | .error e => .error e
        | .ok decViews =>
            .ok (mainView.map (fun kv =>
              decorate_element kv.2.2 (decorate_sublst decViews kv.1)))
  else
    match map_elt_to_value_overlap mainF mainDs with
    | .error e => .error (.wrap "main" e)
    | .ok mainView =>
        match indexDecorators decorators with
        | .error e => .error e
        | .ok decViews =>
            .ok (mainView.flatMap (fun kv =>
              kv.2.map (fun e => decorate_element e.2 (decorate_sublst decViews kv.1))))

theorem indexDecorators_map_fst :
    ∀ (decorators : List (String × (Record → Value) × List Elt))
      (decViews : List (String × List (Value × List Elt))),
      indexDecorators decorators = .ok decViews →
      decViews.map Prod.fst = decorators.map (fun d => d.1)
  | [], decViews, h => by
      simp only [indexDecorators, Except.ok.injEq] at h
      subst h
      simp
  | (anchor, f, ds) :: rest, decViews, h => by
      simp only [indexDecorators] at h
      cases h1 : map_elt_to_value_overlap f ds with
      | error e => rw [h1] at h; simp at h
      | ok view =>
          rw [h1] at h
          cases h2 : indexDecorators rest with
          | error e => rw [h2] at h; simp at h
          | ok views =>
              rw [h2] at h
              simp only [Except.ok.injEq] at h
              subst h
              simp only [List.map_cons]
              rw [indexDecorators_map_fst rest views h2]

/-- Every per-key match list of a decorator view is non-empty and sits
under a truthy key. -/
theorem indexDecorators_views :
    ∀ (decorators : List (String × (Record → Value) × List Elt))
      (decViews : List (String × List (Value × List Elt))),
      indexDecorators decorators = .ok decViews →
      ∀ av ∈ decViews, ∀ kg ∈ av.2, kg.2 ≠ [] ∧ kg.1.truthy
  | [], decViews, h => by
      simp only [indexDecorators, Except.ok.injEq] at h
      subst h
      intro av hav
      simp at hav
  | (anchor, f, ds) :: rest, decViews, h => by
      simp only [indexDecorators] at h
      cases h1 : map_elt_to_value_overlap f ds with
      | error e => rw [h1] at h; simp at h
      | ok view =>
          rw [h1] at h
          cases h2 : indexDecorators rest with
          | error e => rw [h2] at h; simp at h
          | ok views =>
              rw [h2] at h
              simp only [Except.ok.injEq] at h
              subst h
              intro av hav kg hkg
              rcases List.mem_cons.mp hav with rfl | hav2
              · unfold map_elt_to_value_overlap at h1
                obtain ⟨_, hview⟩ := index_loop_overlap_ok _ _ [] view h1
                rw [hview] at hkg
                obtain ⟨hg, hgne⟩ :=
                  mem_ovlFold_eq_filter _ (pyDictOf ds) kg.1 kg.2 hkg
                refine ⟨hgne, ?_⟩
                obtain ⟨x, hx⟩ := List.exists_mem_of_ne_nil _ hgne
                rw [hg] at hx
                have := (List.mem_filter.mp hx).2
                simp only [Bool.and_eq_true, decide_eq_true_eq] at this
                rw [← this.2]
                exact this.1
              · exact indexDecorators_views rest views h2 av hav2 kg hkg

/-- C6: decoration cardinality and content.  With main in exclusive
mode the output has exactly one record per key of the main view; in
overlap mode exactly one record per element of the per-key lists, each
key's records decorated identically.  Every output record is the shallow
copy of its main record in which, for each decorator (with pairwise
distinct anchors) having at least one match at the key, the anchor field
holds the list of its matches, and every other field is the main
record's. -/
theorem claim_C6 (mainF : Record → Value) (mainDs : List Elt)
    (decorators : List (String × (Record → Value) × List Elt))
    (decViews : List (String × List (Value × List Elt)))
    (hdec : indexDecorators decorators = .ok decViews)
    (hanch : (decorators.map (fun d => d.1)).Nodup) :
    (∀ mainView : List (Value × Elt),
      map_elt_to_value mainF mainDs = .ok mainView →
      decorate_dataset true mainF mainDs decorators =
          .ok (mainView.map (fun kv =>
            decorate_element kv.2.2 (decorate_sublst decViews kv.1))) ∧
        (mainView.map (fun kv =>
            decorate_element kv.2.2 (decorate_sublst decViews kv.1))).length =
          mainView.length) ∧
      (∀ mainViewOvl : List (Value × List Elt),
        map_elt_to_value_overlap mainF mainDs = .ok mainViewOvl →
        decorate_dataset false mainF mainDs decorators =
            .ok (mainViewOvl.flatMap (fun kv =>
              kv.2.map (fun e =>
                decorate_element e.2 (decorate_sublst decViews kv.1)))) ∧
          (mainViewOvl.flatMap (fun kv =>
              kv.2.map (fun e =>
                decorate_element e.2 (decorate_sublst decViews kv.1)))).length =
            (mainViewOvl.map (fun kv => kv.2.length)).sum) ∧
      (∀ (k : Value) (elt : Record) (a : String)
          (view2 : List (Value × List Elt)) (mtchs : List Elt),
        (a, view2) ∈ decViews → pyGet view2 k = some mtchs →
        pyGet (decorate_element elt (decorate_sublst decViews k)) a =
          some (eltsToValue mtchs)) ∧
      (∀ (k : Value) (elt : Record) (s : String),
        (∀ view2, (s, view2) ∈ decViews → (pyGet view2 k).getD [] = []) →
        pyGet (decorate_element elt (decorate_sublst decViews k)) s =
          pyGet (pyDictOf elt) s) := by
  have hsubnodup : ∀ (k : Value),
      ((decorate_sublst decViews k).map Prod.fst).Nodup := by
    intro k
    have h1 : (decViews.map Prod.fst).Nodup := by
      rw [indexDecorators_map_fst decorators decViews hdec]
      exact hanch
    unfold decorate_sublst
    rw [List.map_map]
    have hsub :
        List.Sublist
          ((decViews.filter (fun ad =>
              decide (k ≠ Value.null) && !((pyGet ad.2 k).getD []).isEmpty)).map
            Prod.fst)
          (decViews.map Prod.fst) :=
      List.Sublist.map Prod.fst (List.filter_sublist _)
    have : (Prod.fst ∘ fun ad : String × List (Value × List Elt) =>
        (ad.1, eltsToValue ((pyGet ad.2 k).getD []))) = Prod.fst := rfl
    rw [this]
    exact h1.sublist hsub
  refine ⟨?_, ?_, ?_, ?_⟩
  · intro mainView hm
    refine ⟨?_, by simp⟩
    unfold decorate_dataset
    rw [if_pos rfl, hm, hdec]
  · intro mainViewOvl hmo
    refine ⟨?_, ?_⟩
    · unfold decorate_dataset
      rw [if_neg (by decide), hmo, hdec]
    · rw [List.length_flatMap]
      apply congrArg List.sum
      apply List.map_congr_left
      intro kv _
      exact List.length_map _ _
  · intro k elt a view2 mtchs hav hgm
    have hkg : (k, mtchs) ∈ view2 := pyGet_mem hgm
    obtain ⟨hne2, htr⟩ :=
      indexDecorators_views decorators decViews hdec (a, view2) hav (k, mtchs) hkg
    have htr2 : k.truthy := htr
    have hne3 : mtchs ≠ [] := hne2
    have hknn : k ≠ Value.null := by
      intro hh
      rw [hh] at htr2
      exact absurd htr2 (by decide)
    have hmem : (a, eltsToValue mtchs) ∈ decorate_sublst decViews k := by
      unfold decorate_sublst
      refine List.mem_map.mpr ⟨(a, view2), List.mem_filter.mpr ⟨hav, ?_⟩, ?_⟩
      · simp only [hgm, Bool.and_eq_true, decide_eq_true_eq]
        exact ⟨hknn, by simpa using hne3⟩
      · simp [hgm]
    have hchar : decorate_element elt (decorate_sublst decViews k) =
        pyUpdate (pyUpdate [] elt) (decorate_sublst decViews k) := rfl
    rw [hchar, pyGet_pyUpdate, pyGet_reverse_of_nodup (hsubnodup k),
      pyGet_eq_some_of_nodup (hsubnodup k) hmem]
    rfl
  · intro k elt s hnone
    have hnotin : s ∉ (decorate_sublst decViews k).map Prod.fst := by
      unfold decorate_sublst
      rw [List.map_map]
      intro hmem
      obtain ⟨ad, had, heq⟩ := List.mem_map.mp hmem
      obtain ⟨a1, a2⟩ := ad
      obtain ⟨hin, hcond⟩ := List.mem_filter.mp had
      simp only [Bool.and_eq_true, decide_eq_true_eq, Bool.not_eq_true] at hcond
      have heq2 : a1 = s := heq
      subst heq2
      have hempty := hnone a2 hin
      rw [hempty] at hcond
      simp at hcond
    have hchar : decorate_element elt (decorate_sublst decViews k) =
        pyUpdate (pyUpdate [] elt) (decorate_sublst decViews k) := rfl
    rw [hchar, pyGet_pyUpdate]
    have hgnone : pyGet (decorate_sublst decViews k).reverse s = none := by
      rw [pyGet_eq_none, List.map_reverse, List.mem_reverse]
      exact hnotin
    rw [hgnone]
    rfl

/-- C6 (witness): one main record `{id:1}` with two decorators each
matching at key 1 yields exactly one output record carrying both
anchors; in overlap mode, two main records sharing key 1 yield two
output records, each decorated identically. -/
theorem claim_C6_witness :
    decorate_dataset true (qField "id") [(0, [("id", Value.num 1)])]
        [("d1", qField "id", [(1, [("id", Value.num 1), ("v", Value.str "a")])]),
          ("d2", qField "id", [(2, [("id", Value.num 1), ("v", Value.str "b")])])] =
      .ok [[("id", Value.num 1),
            ("d1", Value.list [Value.obj [("id", Value.num 1), ("v", Value.str "a")]]),
            ("d2", Value.list [Value.obj [("id", Value.num 1), ("v", Value.str "b")]])]] ∧
      decorate_dataset false (qField "id")
          [(0, [("id", Value.num 1), ("m", Value.num 1)]),
            (1, [("id", Value.num 1), ("m", Value.num 2)])]
          [("d1", qField "id", [(2, [("id", Value.num 1), ("v", Value.str "a")])])] =
        .ok [[("id", Value.num 1), ("m", Value.num 1),
              ("d1", Value.list [Value.obj [("id", Value.num 1), ("v", Value.str "a")]])],
            [("id", Value.num 1), ("m", Value.num 2),
              ("d1", Value.list [Value.obj [("id", Value.num 1), ("v", Value.str "a")]])]] := by
  have h1 := claim_C6 (qField "id") [(0, [("id", Value.num 1)])]
    [("d1", qField "id", [(1, [("id", Value.num 1), ("v", Value.str "a")])]),
      ("d2", qField "id", [(2, [("id", Value.num 1), ("v", Value.str "b")])])]
    [("d1", [(Value.num 1, [(1, [("id", Value.num 1), ("v", Value.str "a")])])]),
      ("d2", [(Value.num 1, [(2, [("id", Value.num 1), ("v", Value.str "b")])])])]
    rfl (by decide)
  have h2 := claim_C6 (qField "id")
    [(0, [("id", Value.num 1), ("m", Value.num 1)]),
      (1, [("id", Value.num 1), ("m", Value.num 2)])]
    [("d1", qField "id", [(2, [("id", Value.num 1), ("v", Value.str "a")])])]
    [("d1", [(Value.num 1, [(2, [("id", Value.num 1), ("v", Value.str "a")])])])]
    rfl (by decide)
  exact ⟨(h1.1 [(Value.num 1, (0, [("id", Value.num 1)]))] rfl).1,
    (h2.2.1 [(Value.num 1, [(0, [("id", Value.num 1), ("m", Value.num 1)]),
      (1, [("id", Value.num 1), ("m", Value.num 2)])])] rfl).1⟩

/-- C6 (counterexample): two decorators sharing the anchor `"d"`, both
matching at key 1 — the output record's field `"d"` holds only the
later-declared decorator's matches, so it does not hold the first
decorator's matches as the claim requires for *each* decorator. -/
theorem claim_C6_counterexample :
    decorate_dataset true (qField "id") [(0, [("id", Value.num 1)])]
        [("d", qField "id", [(1, [("v", Value.str "a"), ("id", Value.num 1)])]),
          ("d", qField "id", [(2, [("v", Value.str "b"), ("id", Value.num 1)])])] =
      .ok [[("id", Value.num 1),
            ("d", Value.list [Value.obj [("v", Value.str "b"), ("id", Value.num 1)]])]] ∧
      Value.list [Value.obj [("v", Value.str "a"), ("id", Value.num 1)]] ≠
        Value.list [Value.obj [("v", Value.str "b"), ("id", Value.num 1)]] :=
  ⟨rfl, by decide⟩

/-! ## `DataSetLoader.Utils.create_dataset_from_filtering` (claim C8) -/

/-- `pyjq.first(script, value)`: the first result of a jq program run on
`value`, or `None` when the program yields no result.  A jq program is
abstracted as its result sequence `Value → List Value`. -/
def pyjq_first (q : Value → List Value) (v : Value) : Value :=
  ((q v).head?).getD Value.null

/-- `DataSetLoader.Utils.create_dataset_from_filtering(args, data_sets)`:
look up the named dataset (`KeyError` becomes the unknown-set error) and
return the *first* result of the filter query applied to the whole
dataset at once. -/
def create_dataset_from_filtering (q : Value → List Value) (ds_name : String)
    (data_sets : List (String × Value)) : Except Err Value :=
  match pyGet data_sets ds_name with
  | none => .error (.unknownRef ds_name)
  | some ds => .ok (pyjq_first q ds)

/-- The jq stream `.[] | select(p)`: one result per matching element of
the input array. -/
def qSelectEach (p : Value → Bool) (v : Value) : List Value :=
  match v with
  | .list l => l.filter p
  | _ => []

/-- The jq expression `[ .[] | select(p) ]`: a single result, the array
of matching elements of the input array. -/
def qSelectArray (p : Value → Bool) (v : Value) : List Value :=
  match v with
  | .list l => [Value.list (l.filter p)]
  | _ => []

/-- C8 (counterexample): with the record-by-record selection stream
`.[] | select(.keep)` over a two-record dataset in which both records
match, the filter stage returns only the *first* matching record — not
the ordered subset — because the source takes `pyjq.first`, i.e. first
mode, not all mode. -/
theorem claim_C8_counterexample :
    create_dataset_from_filtering
        (qSelectEach (fun r =>
          match r with
          | .obj m => ((pyGet m "keep").getD Value.null).truthy
          | _ => false))
        "ds"
        [("ds", Value.list [Value.obj [("keep", Value.bool true), ("n", Value.num 1)],
          Value.obj [("keep", Value.bool true), ("n", Value.num 2)]])] =
      .ok (Value.obj [("keep", Value.bool true), ("n", Value.num 1)]) ∧
      Value.obj [("keep", Value.bool true), ("n", Value.num 1)] ≠
        Value.list [Value.obj [("keep", Value.bool true), ("n", Value.num 1)],
          Value.obj [("keep", Value.bool true), ("n", Value.num 2)]] :=
  ⟨rfl, by decide⟩

/-- C8 (amended): the filter stage runs its query against the full
dataset in one call (not record by record) and keeps the query's first
result.  When the query is an array-constructing selection
`[ .[] | select(p) ]`, the stage therefore returns exactly the ordered
subset of the dataset matching the predicate: a sublist of the input,
every record of which is an input record satisfying the predicate.  An
unknown dataset name fails with the unknown-reference error. -/
theorem claim_C8_amended (p : Value → Bool) (ds_name : String)
    (data_sets : List (String × Value)) (rs : List Value)
    (hds : pyGet data_sets ds_name = some (Value.list rs)) :
    create_dataset_from_filtering (qSelectArray p) ds_name data_sets =
        .ok (Value.list (rs.filter p)) ∧
      List.Sublist (rs.filter p) rs ∧
      (∀ r ∈ rs.filter p, r ∈ rs ∧ p r) ∧
      (∀ (q : Value → List Value) (name : String), pyGet data_sets name = none →
        create_dataset_from_filtering q name data_sets = .error (.unknownRef name)) := by
  refine ⟨?_, List.filter_sublist rs, ?_, ?_⟩
  · unfold create_dataset_from_filtering
    rw [hds]
    rfl
  · intro r hr
    have := List.mem_filter.mp hr
    exact ⟨this.1, this.2⟩
  · intro q name hn
    unfold create_dataset_from_filtering
    rw [hn]

/-- C8 (witness): filtering `[{keep:true,n:1},{keep:false,n:2},
{keep:true,n:3}]` with `[ .[] | select(.keep) ]` returns records 1 and 3
in input order. -/
theorem claim_C8_witness :
    create_dataset_from_filtering
        (qSelectArray (fun r =>
          match r with
          | .obj m => ((pyGet m "keep").getD Value.null).truthy
          | _ => false))
        "ds"
        [("ds", Value.list [Value.obj [("keep", Value.bool true), ("n", Value.num 1)],
          Value.obj [("keep", Value.bool false), ("n", Value.num 2)],
          Value.obj [("keep", Value.bool true), ("n", Value.num 3)]])] =
      .ok (Value.list [Value.obj [("keep", Value.bool true), ("n", Value.num 1)],
        Value.obj [("keep", Value.bool true), ("n", Value.num 3)]]) :=
  (claim_C8_amended
    (fun r =>
      match r with
      | .obj m => ((pyGet m "keep").getD Value.null).truthy
      | _ => false)
    "ds"
    [("ds", Value.list [Value.obj [("keep", Value.bool true), ("n", Value.num 1)],
      Value.obj [("keep", Value.bool false), ("n", Value.num 2)],
      Value.obj [("keep", Value.bool true), ("n", Value.num 3)]])]
    [Value.obj [("keep", Value.bool true), ("n", Value.num 1)],
      Value.obj [("keep", Value.bool false), ("n", Value.num 2)],
      Value.obj [("keep", Value.bool true), ("n", Value.num 3)]]
    rfl).1

/-! ## The inventory and `InventoryRenderer.Utils` (claims C7, C9) -/

/-- An Ansible group, as initialised by `init_ansible_group`
(`{hosts: [], vars: {}, children: []}`). -/
structure AnsibleGroup : Type where
  hosts : List Value
  vars : Value
  children : List String
  deriving DecidableEq

/-- The empty group every group starts from. -/
def emptyGroup : AnsibleGroup := ⟨[], Value.obj [], []⟩

/-- The inventory: `{'_meta': {'hostvars': {...}}}` plus the named
groups (the dict's `_meta` key is modelled as a separate field; a group
literally named `_meta` would collide with it in Python, which no claim
touches). -/
structure Inventory : Type where
  hostvars : List (Value × Record)
  groups : List (String × AnsibleGroup)
  deriving DecidableEq

/-- `InventoryRenderer.Utils.init_inventory()`. -/
def init_inventory : Inventory := ⟨[], []⟩

/-- `InventoryRenderer.Utils.init_ansible_group(group_name, inventory)`:
create the group with empty hosts/vars/children unless it exists. -/
def init_ansible_group (g : String) (inv : Inventory) : Inventory :=
  match pyGet inv.groups g with
  | some _ => inv
  | none => { inv with groups := inv.groups ++ [(g, emptyGroup)] }

/-- `InventoryRenderer.Utils.add_element_to_group(element_name,
group_name, inventory)`: idempotent host insertion. -/
def add_element_to_group (e : Value) (g : String) (inv : Inventory) : Inventory :=
  let inv := init_ansible_group g inv
  match pyGet inv.groups g with
  | none => inv
  | some grp =>
      if e ∈ grp.hosts then inv
      else { inv with groups := pyInsert inv.groups g { grp with hosts := grp.hosts ++ [e] } }

/-- `InventoryRenderer.Utils.load_element_vars(element_index, element,
inventory)`: store the element's build namespace under its identifier. -/
def load_element_vars (idx : Value) (elt : Record × Record) (inv : Inventory) : Inventory :=
  { inv with hostvars := pyInsert inv.hostvars idx elt.2 }

/-- `InventoryRenderer.Utils.add_element_to_inventory`: host vars, the
element's own dataset group, and the global `all` group. -/
def add_element_to_inventory (idx : Value) (elt : Record × Record) (ds_name : String)
    (inv : Inventory) : Inventory :=
  add_element_to_group idx "all" (add_element_to_group idx ds_name
    (load_element_vars idx elt inv))

/-- Python `str()` of a JSON scalar, used to build group names.  The
textual rendering of container values (Python would print their repr)
is not modelled faithfully; no claim depends on it, since group-by
values are recursively flattened before naming and the claims use
scalar leaves only. -/
def pyStr : Value → String
  | .null => "None"
  | .bool true => "True"
  | .bool false => "False"
  | .num n => toString n
  | .str s => s
  | .list _ => "<list>"
  | .obj _ => "<dict>"

mutual

/-- jq `flatten` (recursive): the non-array leaves of a value, in order. -/
def flattenV : Value → List Value
  | .list l => flattenVList l
  | .null => [Value.null]
  | .bool b => [Value.bool b]
  | .num n => [Value.num n]
  | .str s => [Value.str s]
  | .obj m => [Value.obj m]

/-- jq `flatten` over the elements of an array. -/
def flattenVList : List Value → List Value
  | [] => []
  | v :: rest => flattenV v ++ flattenVList rest

end

/-- `InventoryRenderer.Utils.render_group_by(indexed_data_set, group_by,
grp_pfx, inventory)`: the built query evaluates every group-by
expression on its chosen namespace, collects the results in an array,
recursively flattens it (jq `flatten`), and inserts the element into
one group per non-null leaf, named `grp_pfx + str(leaf)`.  An
absent or empty `group_by` (`if group_by:`) does nothing.  The
insertion of one leaf (`if group is not None: add_element_to_group(...)`)
is `gbStep`. -/
def gbStep (idx : Value) (grp_pfx : String) (inv : Inventory) (g : Value) :
    Inventory :=
  if g = Value.null then inv
  else add_element_to_group idx (grp_pfx ++ pyStr g) inv

/-- The recursively flattened results of all group-by expressions for
one indexed element (`.[1] | [q1, q2, ...] | flatten` in the built
query). -/
def gbLeaves (group_by : List (Bool × (Record → Value))) (kv : Value × RElt) :
    List Value :=
  flattenVList (group_by.map (fun gd => gd.2 (pickNs gd.1 kv.2.2)))

def render_group_by (group_by : List (Bool × (Record → Value))) (grp_pfx : String)
    (indexed_data_set : List (Value × RElt)) (inventory : Inventory) : Inventory :=
  if group_by.isEmpty then inventory
  else
    let mpng := indexed_data_set.map (fun kv => (kv.1, gbLeaves group_by kv))
    mpng.foldl (fun inv ig => ig.2.foldl (gbStep ig.1 grp_pfx) inv) inventory

/-- `InventoryRenderer.Utils.apply_condition(cnd_value, elt_list,
rndrd_ns)`: deduplicate by object identity, evaluate the predicate on
the chosen namespace against all elements in one query, and keep the
matching elements in order. -/
def apply_condition (p : Record → Bool) (elt_list : List RElt) (rndrd_ns : Bool) :
    List RElt :=
  (pyDictOf elt_list).filter (fun e => p (pickNs rndrd_ns e.2))

/-- `InventoryRenderer.Utils.render_host_vars(config, data_set)`: the
host-var projection `h` (the object-construction query on the import
namespace; the identity when the configured mapping is empty) is merged
into every element's build namespace.  The source mutates each tuple in
place and returns `data_set`; elements are fresh tuples, so the map is
faithful. -/
def render_host_vars (h : Record → Record) (data_set : List RElt) : List RElt :=
  data_set.map (fun e => (e.1, (e.2.1, pyUpdate e.2.2 (h e.2.1))))

/-- The element-preparation pipeline of `render_group`: pair every
record with an empty build namespace, apply the optional pre-condition
(import namespace), render host vars, apply the optional post-condition
(chosen namespace). -/
def render_pairs (ds_content : List Record) (pre : Option (Record → Bool))
    (hvars : Record → Record) (post : Option ((Record → Bool) × Bool)) : List RElt :=
  let cntnt : List RElt := (ds_content.enum).map (fun ir => (ir.1, (ir.2, ([] : Record))))
  let cntnt := match pre with
    | none => cntnt
    | some p => apply_condition p cntnt false
  let cntnt := render_host_vars hvars cntnt
  match post with
  | none => cntnt
  | some pb => apply_condition pb.1 cntnt pb.2

/-- `InventoryRenderer.Utils.render_group(rdr_opts, data_sets,
inventory)` for one render element: prepare the pairs, index them
exclusively, insert every indexed element into the inventory (host
vars, own group, `all` group), then run the group-by stage. -/
def render_group (ds_content : List Record) (pre : Option (Record → Bool))
    (hvars : Record → Record) (post : Option ((Record → Bool) × Bool))
    (useBuild : Bool) (idxF : Record → Value)
    (group_by : List (Bool × (Record → Value))) (grp_pfx : String)
    (ds_name : String) (inventory : Inventory) : Except Err Inventory :=
  match index_elements useBuild idxF (render_pairs ds_content pre hvars post) with
  | .error e => .error (.wrap ds_name e)
  | .ok indxd =>
      let inv := indxd.foldl
        (fun inv kv => add_element_to_inventory kv.1 kv.2.2 ds_name inv) inventory
      .ok (render_group_by group_by grp_pfx indxd inv)

/-! ### Inventory operation lemmas -/

theorem pyGet_init_ansible_group (g : String) (inv : Inventory) (gname : String) :
    pyGet (init_ansible_group g inv).groups gname =
      if gname = g then some ((pyGet inv.groups g).getD emptyGroup)
      else pyGet inv.groups gname := by
  unfold init_ansible_group
  cases hg : pyGet inv.groups g with
  | some grp =>
      by_cases h : gname = g
      · subst h
        simp [hg]
      · simp [hg, h]
  | none =>
      by_cases h : gname = g
      · subst h
        simp only [hg, Option.getD_none]
        rw [pyGet_append, hg]
        simp [pyGet]
      · simp only [hg]
        rw [pyGet_append]
        cases hgn : pyGet inv.groups gname <;> simp [hgn, pyGet, h]

theorem hostvars_init_ansible_group (g : String) (inv : Inventory) :
    (init_ansible_group g inv).hostvars = inv.hostvars := by
  unfold init_ansible_group
  cases pyGet inv.groups g <;> rfl

theorem hostvars_add_element_to_group (e : Value) (g : String) (inv : Inventory) :
    (add_element_to_group e g inv).hostvars = inv.hostvars := by
  unfold add_element_to_group
  cases h : pyGet (init_ansible_group g inv).groups g with
  | none =>
      simp only [h]
      exact hostvars_init_ansible_group g inv
  | some grp =>
      simp only [h]
      by_cases hm : e ∈ grp.hosts
      · rw [if_pos hm]
        exact hostvars_init_ansible_group g inv
      · rw [if_neg hm]
        exact hostvars_init_ansible_group g inv

theorem pyGet_add_element_to_group_self (e : Value) (g : String) (inv : Inventory) :
    ∃ grp : AnsibleGroup,
      pyGet (add_element_to_group e g inv).groups g = some grp ∧
      grp.hosts =
        (if e ∈ ((pyGet inv.groups g).getD emptyGroup).hosts
         then ((pyGet inv.groups g).getD emptyGroup).hosts
         else ((pyGet inv.groups g).getD emptyGroup).hosts ++ [e]) := by
  unfold add_element_to_group
  have hget := pyGet_init_ansible_group g inv g
  rw [if_pos rfl] at hget
  simp only [hget]
  by_cases hmem : e ∈ ((pyGet inv.groups g).getD emptyGroup).hosts
  · rw [if_pos hmem]
    exact ⟨(pyGet inv.groups g).getD emptyGroup, hget, by rw [if_pos hmem]⟩
  · rw [if_neg hmem]
    refine ⟨{ (pyGet inv.groups g).getD emptyGroup with
      hosts := ((pyGet inv.groups g).getD emptyGroup).hosts ++ [e] }, ?_, by rw [if_neg hmem]⟩
    exact pyGet_pyInsert_self _ _ _

theorem pyGet_add_element_to_group_ne (e : Value) (g : String) (inv : Inventory)
    {gname : String} (h : gname ≠ g) :
    pyGet (add_element_to_group e g inv).groups gname = pyGet inv.groups gname := by
  unfold add_element_to_group
  have hget := pyGet_init_ansible_group g inv g
  rw [if_pos rfl] at hget
  have hgetn := pyGet_init_ansible_group g inv gname
  rw [if_neg h] at hgetn
  simp only [hget]
  by_cases hmem : e ∈ ((pyGet inv.groups g).getD emptyGroup).hosts
  · rw [if_pos hmem]
    exact hgetn
  · rw [if_neg hmem]
    show pyGet (pyInsert (init_ansible_group g inv).groups g _) gname = _
    rw [pyGet_pyInsert_ne _ _ h]
    exact hgetn

/-- `x` is a host of group `gname` in the inventory. -/
def hostIn (inv : Inventory) (gname : String) (x : Value) : Prop :=
  ∃ grp, pyGet inv.groups gname = some grp ∧ x ∈ grp.hosts

/-- Every group's host list is duplicate-free. -/
def HostsNodup (inv : Inventory) : Prop :=
  ∀ gname grp, pyGet inv.groups gname = some grp → grp.hosts.Nodup

theorem hostIn_add_forward {e : Value} {g : String} {inv : Inventory}
    {gname : String} {x : Value} (h : hostIn (add_element_to_group e g inv) gname x) :
    hostIn inv gname x ∨ (x = e ∧ gname = g) := by
  obtain ⟨grp, hget, hx⟩ := h
  by_cases hgg : gname = g
  · subst hgg
    obtain ⟨grp2, hget2, hhosts⟩ := pyGet_add_element_to_group_self e gname inv
    rw [hget2] at hget
    obtain rfl := Option.some.inj hget
    rw [hhosts] at hx
    cases hbase : pyGet inv.groups gname with
    | none =>
        rw [hbase] at hx
        simp only [Option.getD_none] at hx
        have : ¬ e ∈ emptyGroup.hosts := by simp [emptyGroup]
        rw [if_neg this] at hx
        simp only [emptyGroup, List.nil_append, List.mem_singleton] at hx
        exact .inr ⟨hx, rfl⟩
    | some grp0 =>
        rw [hbase] at hx
        simp only [Option.getD_some] at hx
        by_cases hmem : e ∈ grp0.hosts
        · rw [if_pos hmem] at hx
          exact .inl ⟨grp0, hbase, hx⟩
        · rw [if_neg hmem] at hx
          rcases List.mem_append.mp hx with hx | hx
          · exact .inl ⟨grp0, hbase, hx⟩
          · exact .inr ⟨List.mem_singleton.mp hx, rfl⟩
  · rw [pyGet_add_element_to_group_ne e g inv hgg] at hget
    exact .inl ⟨grp, hget, hx⟩

theorem hostIn_add_mono {e : Value} {g : String} {inv : Inventory}
    {gname : String} {x : Value} (h : hostIn inv gname x) :
    hostIn (add_element_to_group e g inv) gname x := by
  obtain ⟨grp, hget, hx⟩ := h
  by_cases hgg : gname = g
  · subst hgg
    obtain ⟨grp2, hget2, hhosts⟩ := pyGet_add_element_to_group_self e gname inv
    refine ⟨grp2, hget2, ?_⟩
    rw [hhosts, hget]
    simp only [Option.getD_some]
    by_cases hmem : e ∈ grp.hosts
    · rw [if_pos hmem]; exact hx
    · rw [if_neg hmem]; exact List.mem_append_left _ hx
  · exact ⟨grp, by rw [pyGet_add_element_to_group_ne e g inv hgg]; exact hget, hx⟩

theorem hostIn_add_self (e : Value) (g : String) (inv : Inventory) :
    hostIn (add_element_to_group e g inv) g e := by
  obtain ⟨grp2, hget2, hhosts⟩ := pyGet_add_element_to_group_self e g inv
  refine ⟨grp2, hget2, ?_⟩
  rw [hhosts]
  by_cases hmem : e ∈ ((pyGet inv.groups g).getD emptyGroup).hosts
  · rw [if_pos hmem]; exact hmem
  · rw [if_neg hmem]; exact List.mem_append_right _ (List.mem_singleton.mpr rfl)

theorem hostsNodup_add {e : Value} {g : String} {inv : Inventory}
    (h : HostsNodup inv) : HostsNodup (add_element_to_group e g inv) := by
  intro gname grp hget
  by_cases hgg : gname = g
  · subst hgg
    obtain ⟨grp2, hget2, hhosts⟩ := pyGet_add_element_to_group_self e gname inv
    rw [hget2] at hget
    obtain rfl := Option.some.inj hget
    rw [hhosts]
    have hbasen : ((pyGet inv.groups gname).getD emptyGroup).hosts.Nodup := by
      cases hbase : pyGet inv.groups gname with
      | none => simp [emptyGroup]
      | some grp0 => simpa using h gname grp0 hbase
    by_cases hmem : e ∈ ((pyGet inv.groups gname).getD emptyGroup).hosts
    · rw [if_pos hmem]; exact hbasen
    · rw [if_neg hmem]
      simp [List.nodup_append, hbasen, hmem]
  · rw [pyGet_add_element_to_group_ne e g inv hgg] at hget
    exact h gname grp hget

/-! ### Group-by fold lemmas -/

theorem gbFold_hostvars (idx : Value) (pfx : String) :
    ∀ (gs : List Value) (inv : Inventory),
      (gs.foldl (gbStep idx pfx) inv).hostvars = inv.hostvars
  | [], _ => rfl
  | g :: rest, inv => by
      simp only [List.foldl_cons]
      rw [gbFold_hostvars idx pfx rest]
      unfold gbStep
      by_cases h : g = Value.null
      · rw [if_pos h]
      · rw [if_neg h]
        exact hostvars_add_element_to_group _ _ _

theorem gbFold_mono (idx : Value) (pfx : String) :
    ∀ (gs : List Value) (inv : Inventory) (gname : String) (x : Value),
      hostIn inv gname x → hostIn (gs.foldl (gbStep idx pfx) inv) gname x
  | [], _, _, _, h => h
  | g :: rest, inv, gname, x, h => by
      simp only [List.foldl_cons]
      apply gbFold_mono idx pfx rest
      unfold gbStep
      by_cases hg : g = Value.null
      · rwa [if_pos hg]
      · rw [if_neg hg]
        exact hostIn_add_mono h

theorem gbFold_forward (idx : Value) (pfx : String) :
    ∀ (gs : List Value) (inv : Inventory) (gname : String) (x : Value),
      hostIn (gs.foldl (gbStep idx pfx) inv) gname x →
      hostIn inv gname x ∨
        (x = idx ∧ ∃ v ∈ gs, v ≠ Value.null ∧ gname = pfx ++ pyStr v)
  | [], _, _, _, h => .inl h
  | g :: rest, inv, gname, x, h => by
      simp only [List.foldl_cons] at h
      rcases gbFold_forward idx pfx rest _ gname x h with h2 | h2
      · unfold gbStep at h2
        by_cases hg : g = Value.null
        · rw [if_pos hg] at h2
          exact .inl h2
        · rw [if_neg hg] at h2
          rcases hostIn_add_forward h2 with h3 | ⟨hx, hgn⟩
          · exact .inl h3
          · exact .inr ⟨hx, g, List.mem_cons_self _ _, hg, hgn⟩
      · obtain ⟨hx, v, hv, hvn, hgn⟩ := h2
        exact .inr ⟨hx, v, List.mem_cons_of_mem _ hv, hvn, hgn⟩

theorem gbFold_self (idx : Value) (pfx : String) :
    ∀ (gs : List Value) (inv : Inventory) (v : Value),
      v ∈ gs → v ≠ Value.null →
      hostIn (gs.foldl (gbStep idx pfx) inv) (pfx ++ pyStr v) idx
  | [], _, _, hv, _ => absurd hv (by simp)
  | g :: rest, inv, v, hv, hvn => by
      simp only [List.foldl_cons]
      rcases List.mem_cons.mp hv with rfl | hv2
      · apply gbFold_mono
        unfold gbStep
        rw [if_neg hvn]
        exact hostIn_add_self _ _ _
      · exact gbFold_self idx pfx rest _ v hv2 hvn

theorem gbFold_nodup (idx : Value) (pfx : String) :
    ∀ (gs : List Value) (inv : Inventory),
      HostsNodup inv → HostsNodup (gs.foldl (gbStep idx pfx) inv)
  | [], _, h => h
  | g :: rest, inv, h => by
      simp only [List.foldl_cons]
      apply gbFold_nodup idx pfx rest
      unfold gbStep
      by_cases hg : g = Value.null
      · rwa [if_pos hg]
      · rw [if_neg hg]
        exact hostsNodup_add h

theorem gbOuter_hostvars (pfx : String) :
    ∀ (mpng : List (Value × List Value)) (inv : Inventory),
      (mpng.foldl (fun inv ig => ig.2.foldl (gbStep ig.1 pfx) inv) inv).hostvars =
        inv.hostvars
  | [], _ => rfl
  | ig :: rest, inv => by
      simp only [List.foldl_cons]
      rw [gbOuter_hostvars pfx rest, gbFold_hostvars]

theorem gbOuter_mono (pfx : String) :
    ∀ (mpng : List (Value × List Value)) (inv : Inventory) (gname : String) (x : Value),
      hostIn inv gname x →
      hostIn (mpng.foldl (fun inv ig => ig.2.foldl (gbStep ig.1 pfx) inv) inv) gname x
  | [], _, _, _, h => h
  | ig :: rest, inv, gname, x, h => by
      simp only [List.foldl_cons]
      exact gbOuter_mono pfx rest _ gname x (gbFold_mono ig.1 pfx ig.2 inv gname x h)

theorem gbOuter_forward (pfx : String) :
    ∀ (mpng : List (Value × List Value)) (inv : Inventory) (gname : String) (x : Value),
      hostIn (mpng.foldl (fun inv ig => ig.2.foldl (gbStep ig.1 pfx) inv) inv) gname x →
      hostIn inv gname x ∨
        ∃ ig ∈ mpng, x = ig.1 ∧ ∃ v ∈ ig.2, v ≠ Value.null ∧ gname = pfx ++ pyStr v
  | [], _, _, _, h => .inl h
  | ig :: rest, inv, gname, x, h => by
      simp only [List.foldl_cons] at h
      rcases gbOuter_forward pfx rest _ gname x h with h2 | h2
      · rcases gbFold_forward ig.1 pfx ig.2 inv gname x h2 with h3 | ⟨hx, v, hv, hvn, hgn⟩
        · exact .inl h3
        · exact .inr ⟨ig, List.mem_cons_self _ _, hx, v, hv, hvn, hgn⟩
      · obtain ⟨ig2, hig2, hx, v, hv, hvn, hgn⟩ := h2
        exact .inr ⟨ig2, List.mem_cons_of_mem _ hig2, hx, v, hv, hvn, hgn⟩

theorem gbOuter_self (pfx : String) :
    ∀ (mpng : List (Value × List Value)) (inv : Inventory) (ig : Value × List Value)
      (v : Value), ig ∈ mpng → v ∈ ig.2 → v ≠ Value.null →
      hostIn (mpng.foldl (fun inv ig => ig.2.foldl (gbStep ig.1 pfx) inv) inv)
        (pfx ++ pyStr v) ig.1
  | [], _, _, _, hig, _, _ => absurd hig (by simp)
  | ig0 :: rest, inv, ig, v, hig, hv, hvn => by
      simp only [List.foldl_cons]
      rcases List.mem_cons.mp hig with rfl | hig2
      · exact gbOuter_mono pfx rest _ _ _ (gbFold_self ig.1 pfx ig.2 inv v hv hvn)
      · exact gbOuter_self pfx rest _ ig v hig2 hv hvn

theorem gbOuter_nodup (pfx : String) :
    ∀ (mpng : List (Value × List Value)) (inv : Inventory),
      HostsNodup inv →
      HostsNodup (mpng.foldl (fun inv ig => ig.2.foldl (gbStep ig.1 pfx) inv) inv)
  | [], _, h => h
  | ig :: rest, inv, h => by
      simp only [List.foldl_cons]
      exact gbOuter_nodup pfx rest _ (gbFold_nodup ig.1 pfx ig.2 inv h)

/-! ## Claim C7: group-by membership production -/

/-- C7 (counterexample): an element whose single group-by expression
yields the two-element list `[["a","b"],"c"]` does not get one
membership per list element — jq `flatten` recurses, producing three
memberships (`g_a`, `g_b`, `g_c`), one per scalar leaf. -/
theorem claim_C7_counterexample :
    render_group_by
        [(false, fun _ => Value.list [Value.list [Value.str "a", Value.str "b"],
          Value.str "c"])] "g_"
        [(Value.num 1, (0, ([], [])))] init_inventory =
      ⟨[], [("g_a", ⟨[Value.num 1], Value.obj [], []⟩),
            ("g_b", ⟨[Value.num 1], Value.obj [], []⟩),
            ("g_c", ⟨[Value.num 1], Value.obj [], []⟩)]⟩ ∧
      ([Value.list [Value.str "a", Value.str "b"], Value.str "c"] : List Value).length = 2 ∧
      ([("g_a", (⟨[Value.num 1], Value.obj [], []⟩ : AnsibleGroup)),
        ("g_b", ⟨[Value.num 1], Value.obj [], []⟩),
        ("g_c", ⟨[Value.num 1], Value.obj [], []⟩)]).length = 3 :=
  ⟨rfl, rfl, rfl⟩

/-- C7 (amended): for every indexed element and non-empty group-by
configuration, the element receives exactly one membership per non-null
*leaf* of the recursively flattened results of its group-by expressions
(a flat list of scalars thus gives one membership per list element, a
scalar one membership, and null — standalone or as a leaf — none), each
in the group named by the configured prefix followed by the rendered
value; no membership in any other group arises; insertion is idempotent
(duplicate-free host lists stay duplicate-free); host vars are
untouched. -/
theorem claim_C7_amended (gb : List (Bool × (Record → Value))) (pfx : String)
    (ids : List (Value × RElt)) (inv : Inventory) (hgb : gb ≠ []) :
    (∀ kv ∈ ids, ∀ v ∈ gbLeaves gb kv, v ≠ Value.null →
      hostIn (render_group_by gb pfx ids inv) (pfx ++ pyStr v) kv.1) ∧
      (∀ (gname : String) (x : Value),
        hostIn (render_group_by gb pfx ids inv) gname x →
        hostIn inv gname x ∨
          ∃ kv ∈ ids, x = kv.1 ∧
            ∃ v ∈ gbLeaves gb kv, v ≠ Value.null ∧ gname = pfx ++ pyStr v) ∧
      (HostsNodup inv → HostsNodup (render_group_by gb pfx ids inv)) ∧
      (render_group_by gb pfx ids inv).hostvars = inv.hostvars := by
  have hne : gb.isEmpty = false := by
    cases gb with
    | nil => exact absurd rfl hgb
    | cons a l => rfl
  unfold render_group_by
  rw [hne]
  simp only [Bool.false_eq_true, if_false]
  refine ⟨?_, ?_, ?_, ?_⟩
  · intro kv hkv v hv hvn
    exact gbOuter_self pfx _ inv (kv.1, gbLeaves gb kv)
      v (List.mem_map.mpr ⟨kv, hkv, rfl⟩) hv hvn
  · intro gname x h
    rcases gbOuter_forward pfx _ inv gname x h with h2 | ⟨ig, hig, hx, v, hv, hvn, hgn⟩
    · exact .inl h2
    · obtain ⟨kv, hkv, rfl⟩ := List.mem_map.mp hig
      exact .inr ⟨kv, hkv, hx, v, hv, hvn, hgn⟩
  · intro h
    exact gbOuter_nodup pfx _ inv h
  · exact gbOuter_hostvars pfx _ inv

/-- C7 (witness): an element whose group-by expression yields
`["a","b"]` with prefix `"g_"` lands in both `g_a` and `g_b`. -/
theorem claim_C7_witness :
    hostIn (render_group_by
        [(false, fun r => (pyGet r "groups").getD Value.null)] "g_"
        [(Value.num 1, (0, ([("groups", Value.list [Value.str "a", Value.str "b"])], [])))]
        init_inventory) "g_a" (Value.num 1) ∧
      hostIn (render_group_by
        [(false, fun r => (pyGet r "groups").getD Value.null)] "g_"
        [(Value.num 1, (0, ([("groups", Value.list [Value.str "a", Value.str "b"])], [])))]
        init_inventory) "g_b" (Value.num 1) := by
  have h := claim_C7_amended
    [(false, fun r => (pyGet r "groups").getD Value.null)] "g_"
    [(Value.num 1, (0, ([("groups", Value.list [Value.str "a", Value.str "b"])], [])))]
    init_inventory (by simp)
  refine ⟨?_, ?_⟩
  · have h2 := h.1 (Value.num 1,
      (0, ([("groups", Value.list [Value.str "a", Value.str "b"])], [])))
      (by simp) (Value.str "a") (by decide) (by decide)
    exact h2
  · have h2 := h.1 (Value.num 1,
      (0, ([("groups", Value.list [Value.str "a", Value.str "b"])], [])))
      (by simp) (Value.str "b") (by decide) (by decide)
    exact h2

/-! ## Claim C9: round-trip invariant of the rendered inventory -/

theorem pyGet_pyInsert_isSome {α β : Type} [DecidableEq α] {d : List (α × β)} {x k : α}
    (v : β) (h : (pyGet d x).isSome) : (pyGet (pyInsert d k v) x).isSome := by
  by_cases hx : x = k
  · subst hx
    rw [pyGet_pyInsert_self]
    rfl
  · rwa [pyGet_pyInsert_ne _ _ hx]

theorem hostvars_add_element_to_inventory (idx : Value) (elt : Record × Record)
    (ds_name : String) (inv : Inventory) :
    (add_element_to_inventory idx elt ds_name inv).hostvars =
      pyInsert inv.hostvars idx elt.2 := by
  unfold add_element_to_inventory
  rw [hostvars_add_element_to_group, hostvars_add_element_to_group]
  rfl

theorem hostIn_aei_forward {idx : Value} {elt : Record × Record} {ds_name : String}
    {inv : Inventory} {gname : String} {x : Value}
    (h : hostIn (add_element_to_inventory idx elt ds_name inv) gname x) :
    hostIn inv gname x ∨ x = idx := by
  unfold add_element_to_inventory at h
  rcases hostIn_add_forward h with h2 | ⟨hx, _⟩
  · rcases hostIn_add_forward h2 with h3 | ⟨hx, _⟩
    · obtain ⟨grp, hget, hxg⟩ := h3
      exact .inl ⟨grp, hget, hxg⟩
    · exact .inr hx
  · exact .inr hx

theorem hostsNodup_aei {idx : Value} {elt : Record × Record} {ds_name : String}
    {inv : Inventory} (h : HostsNodup inv) :
    HostsNodup (add_element_to_inventory idx elt ds_name inv) := by
  unfold add_element_to_inventory
  apply hostsNodup_add
  apply hostsNodup_add
  intro gname grp hget
  exact h gname grp hget

theorem eltFold_hostvars_mono (ds_name : String) :
    ∀ (l : List (Value × RElt)) (inv : Inventory) (x : Value),
      (pyGet inv.hostvars x).isSome →
      (pyGet ((l.foldl (fun inv kv =>
        add_element_to_inventory kv.1 kv.2.2 ds_name inv) inv).hostvars) x).isSome
  | [], _, _, h => h
  | kv :: rest, inv, x, h => by
      simp only [List.foldl_cons]
      apply eltFold_hostvars_mono ds_name rest
      rw [hostvars_add_element_to_inventory]
      exact pyGet_pyInsert_isSome _ h

theorem eltFold_hostvars_all (ds_name : String) :
    ∀ (l : List (Value × RElt)) (inv : Inventory), ∀ kv ∈ l,
      (pyGet ((l.foldl (fun inv kv =>
        add_element_to_inventory kv.1 kv.2.2 ds_name inv) inv).hostvars) kv.1).isSome
  | [], _, kv, hkv => absurd hkv (by simp)
  | kv0 :: rest, inv, kv, hkv => by
      simp only [List.foldl_cons]
      rcases List.mem_cons.mp hkv with rfl | hkv2
      · apply eltFold_hostvars_mono ds_name rest
        rw [hostvars_add_element_to_inventory]
        rw [pyGet_pyInsert_self]
        rfl
      · exact eltFold_hostvars_all ds_name rest _ kv hkv2

theorem eltFold_forward (ds_name : String) :
    ∀ (l : List (Value × RElt)) (inv : Inventory) (gname : String) (x : Value),
      hostIn (l.foldl (fun inv kv =>
        add_element_to_inventory kv.1 kv.2.2 ds_name inv) inv) gname x →
      hostIn inv gname x ∨ ∃ kv ∈ l, x = kv.1
  | [], _, _, _, h => .inl h
  | kv0 :: rest, inv, gname, x, h => by
      simp only [List.foldl_cons] at h
      rcases eltFold_forward ds_name rest _ gname x h with h2 | ⟨kv, hkv, hx⟩
      · rcases hostIn_aei_forward h2 with h3 | hx
        · exact .inl h3
        · exact .inr ⟨kv0, List.mem_cons_self _ _, hx⟩
      · exact .inr ⟨kv, List.mem_cons_of_mem _ hkv, hx⟩

theorem exclView_map_fst {E : Type} (key : E → Value) (l : List E) :
    (exclView key l).map Prod.fst = exclKeys key l := by
  unfold exclView exclKeys
  rw [List.map_map]
  rfl

/-- Weak forward lemma for the whole group-by stage: any host of any
group either was present before or is the identifier of an indexed
element. -/
theorem render_group_by_forward (gb : List (Bool × (Record → Value))) (pfx : String)
    (ids : List (Value × RElt)) (inv : Inventory) (gname : String) (x : Value)
    (h : hostIn (render_group_by gb pfx ids inv) gname x) :
    hostIn inv gname x ∨ ∃ kv ∈ ids, x = kv.1 := by
  unfold render_group_by at h
  by_cases hgb : gb.isEmpty
  · rw [if_pos hgb] at h
    exact .inl h
  · rw [if_neg hgb] at h
    simp only at h
    rcases gbOuter_forward pfx _ inv gname x h with h2 | ⟨ig, hig, hx, _⟩
    · exact .inl h2
    · obtain ⟨kv, hkv, rfl⟩ := List.mem_map.mp hig
      exact .inr ⟨kv, hkv, hx⟩

theorem render_group_by_hostvars (gb : List (Bool × (Record → Value))) (pfx : String)
    (ids : List (Value × RElt)) (inv : Inventory) :
    (render_group_by gb pfx ids inv).hostvars = inv.hostvars := by
  unfold render_group_by
  by_cases hgb : gb.isEmpty
  · rw [if_pos hgb]
  · rw [if_neg hgb]
    exact gbOuter_hostvars pfx _ inv

/-- Keys of a successful exclusive indexing pass are pairwise distinct. -/
theorem index_elements_keys_nodup {useBuild : Bool} {f : Record → Value}
    {ds : List RElt} {indxd : List (Value × RElt)}
    (h : index_elements useBuild f ds = .ok indxd) : (indxd.map Prod.fst).Nodup := by
  unfold index_elements at h
  obtain ⟨_, hn, _, hres⟩ := index_loop_ok _ _ [] indxd h
  rw [hres, List.nil_append, exclView_map_fst]
  exact hn

/-- A successful `render_group` call: the indexing pass succeeded and
the result is the group-by stage applied after the element-insertion
fold. -/
theorem render_group_ok_shape {ds_content : List Record} {pre : Option (Record → Bool)}
    {hvars : Record → Record} {post : Option ((Record → Bool) × Bool)}
    {useBuild : Bool} {idxF : Record → Value}
    {group_by : List (Bool × (Record → Value))} {grp_pfx : String}
    {ds_name : String} {inv0 inv1 : Inventory}
    (h : render_group ds_content pre hvars post useBuild idxF group_by grp_pfx
      ds_name inv0 = .ok inv1) :
    ∃ indxd, index_elements useBuild idxF (render_pairs ds_content pre hvars post) =
        .ok indxd ∧
      inv1 = render_group_by group_by grp_pfx indxd
        (indxd.foldl (fun inv kv => add_element_to_inventory kv.1 kv.2.2 ds_name inv)
          inv0) := by
  unfold render_group at h
  cases hix : index_elements useBuild idxF (render_pairs ds_content pre hvars post) with
  | error e => rw [hix] at h; simp at h
  | ok indxd =>
      rw [hix] at h
      simp only [Except.ok.injEq] at h
      exact ⟨indxd, rfl, h.symm⟩

/-- Any host of any group after a successful `render_group` call was a
host before or is a key of the call's indexing pass. -/
theorem render_group_hostIn_forward {ds_content : List Record}
    {pre : Option (Record → Bool)} {hvars : Record → Record}
    {post : Option ((Record → Bool) × Bool)} {useBuild : Bool} {idxF : Record → Value}
    {group_by : List (Bool × (Record → Value))} {grp_pfx : String}
    {ds_name : String} {inv0 inv1 : Inventory}
    (h : render_group ds_content pre hvars post useBuild idxF group_by grp_pfx
      ds_name inv0 = .ok inv1)
    {gname : String} {x : Value} (hx : hostIn inv1 gname x) :
    hostIn inv0 gname x ∨
      ∃ indxd, index_elements useBuild idxF (render_pairs ds_content pre hvars post) =
        .ok indxd ∧ (pyGet indxd x).isSome := by
  obtain ⟨indxd, hix, rfl⟩ := render_group_ok_shape h
  rcases render_group_by_forward group_by grp_pfx indxd _ gname x hx with
    h2 | ⟨kv, hkv, rfl⟩
  · rcases eltFold_forward ds_name indxd inv0 gname x h2 with h3 | ⟨kv, hkv, rfl⟩
    · exact .inl h3
    · exact .inr ⟨indxd, hix, mem_pyGet_isSome hkv⟩
  · exact .inr ⟨indxd, hix, mem_pyGet_isSome hkv⟩

/-- `render_group` never removes a `_meta.hostvars` key. -/
theorem render_group_hostvars_mono {ds_content : List Record}
    {pre : Option (Record → Bool)} {hvars : Record → Record}
    {post : Option ((Record → Bool) × Bool)} {useBuild : Bool} {idxF : Record → Value}
    {group_by : List (Bool × (Record → Value))} {grp_pfx : String}
    {ds_name : String} {inv0 inv1 : Inventory}
    (h : render_group ds_content pre hvars post useBuild idxF group_by grp_pfx
      ds_name inv0 = .ok inv1)
    (x : Value) (hx : (pyGet inv0.hostvars x).isSome) :
    (pyGet inv1.hostvars x).isSome := by
  obtain ⟨indxd, hix, rfl⟩ := render_group_ok_shape h
  rw [render_group_by_hostvars]
  exact eltFold_hostvars_mono ds_name indxd inv0 x hx

/-- Every key of a successful `render_group` call's indexing pass is
stored under `_meta.hostvars`. -/
theorem render_group_hostvars_all {ds_content : List Record}
    {pre : Option (Record → Bool)} {hvars : Record → Record}
    {post : Option ((Record → Bool) × Bool)} {useBuild : Bool} {idxF : Record → Value}
    {group_by : List (Bool × (Record → Value))} {grp_pfx : String}
    {ds_name : String} {inv0 inv1 : Inventory}
    (h : render_group ds_content pre hvars post useBuild idxF group_by grp_pfx
      ds_name inv0 = .ok inv1)
    {indxd : List (Value × RElt)}
    (hix : index_elements useBuild idxF (render_pairs ds_content pre hvars post) =
      .ok indxd)
    (x : Value) (hx : (pyGet indxd x).isSome) :
    (pyGet inv1.hostvars x).isSome := by
  obtain ⟨indxd2, hix2, rfl⟩ := render_group_ok_shape h
  rw [hix] at hix2
  obtain rfl := Except.ok.inj hix2
  rw [render_group_by_hostvars]
  obtain ⟨v, hv⟩ := Option.isSome_iff_exists.mp hx
  exact eltFold_hostvars_all ds_name indxd inv0 (x, v) (pyGet_mem hv)

/-! ### The whole-inventory render: `render_inventory` -/

/-- Configuration of one entry of the `elements` array (`rdr_opts`):
the data-set name (also used as the group name) and the arguments that
`render_group` reads from `rdr_opts["args"]`. -/
structure RenderElement : Type where
  ds_name : String
  pre : Option (Record → Bool)
  hvars : Record → Record
  post : Option ((Record → Bool) × Bool)
  useBuild : Bool
  idxF : Record → Value
  group_by : List (Bool × (Record → Value))
  grp_pfx : String

/-- `InventoryRenderer.Utils.load_group_vars(group_name, data,
inventory)`: initialise the group, then store the data set as its
`vars`. -/
def load_group_vars (group_name : String) (data : Value) (inv : Inventory) : Inventory :=
  { init_ansible_group group_name inv with
    groups := pyInsert (init_ansible_group group_name inv).groups group_name
      { (pyGet (init_ansible_group group_name inv).groups group_name).getD emptyGroup with
        vars := data } }

/-- `inventory[parent]['children'] = list(children.keys())` in
`load_group_hierarchy`, run right after `init_ansible_group(parent)`. -/
def set_group_children (parent : String) (cs : List String) (inv : Inventory) : Inventory :=
  { init_ansible_group parent inv with
    groups := pyInsert (init_ansible_group parent inv).groups parent
      { (pyGet (init_ansible_group parent inv).groups parent).getD emptyGroup with
        children := cs } }

mutual

/-- One entry of the hierarchy mapping: initialise the parent and, when
its children entry is itself a mapping, store the mapping's keys as the
parent's `children` and recurse into it (`isinstance(children, dict)`). -/
def load_group_hierarchy_step (parent : String) (children : Value) (inv : Inventory) :
    Inventory :=
  match children with
  | .obj cs => load_group_hierarchy cs (set_group_children parent (cs.map Prod.fst) inv)
  | _ => init_ansible_group parent inv

/-- `InventoryRenderer.Utils.load_group_hierarchy(hierarchy, inventory)`. -/
def load_group_hierarchy : List (String × Value) → Inventory → Inventory
  | [], inv => inv
  | pc :: rest, inv => load_group_hierarchy rest (load_group_hierarchy_step pc.1 pc.2 inv)

end

/-- The `elements` loop of `render_inventory`: look up each element's
data set (`if name not in data_sets: raise`), render it into the shared
inventory, and wrap a render failure with the data set's name. -/
def render_elements (data_sets : List (String × List Record)) :
    List RenderElement → Inventory → Except Err Inventory
  | [], inv => .ok inv
  | el :: rest, inv =>
      match pyGet data_sets el.ds_name with
      | none => .error (.unknownRef el.ds_name)
      | some ds =>
          match render_group ds el.pre el.hvars el.post el.useBuild el.idxF
              el.group_by el.grp_pfx el.ds_name inv with
          | .error e => .error (.wrap el.ds_name e)
          | .ok inv2 => render_elements data_sets rest inv2

/-- The `group_vars` loop of `render_inventory`: each definition names
a group and a data set; a missing data set raises, otherwise the whole
data set is stored as the group's `vars`. -/
def load_group_vars_all (data_sets : List (String × List Record)) :
    List (String × String) → Inventory → Except Err Inventory
  | [], inv => .ok inv
  | gv :: rest, inv =>
      match pyGet data_sets gv.2 with
      | none => .error (.unknownRef gv.2)
      | some ds =>
          load_group_vars_all data_sets rest
            (load_group_vars gv.1 (Value.list (ds.map Value.obj)) inv)

/-- `InventoryRenderer.render_inventory(data_sets)`: in list mode,
render every entry of the `elements` array in order into one shared
inventory started from `init_inventory`, then load the group vars and
the group hierarchy; outside list mode the fresh inventory is returned
as is. -/
def render_inventory (data_sets : List (String × List Record))
    (elements : List RenderElement) (group_vars : List (String × String))
    (group_hierarchy : List (String × Value)) (list_mode : Bool) :
    Except Err Inventory :=
  if list_mode then
    match render_elements data_sets elements init_inventory with
    | .error e => .error e
    | .ok inv =>
        match load_group_vars_all data_sets group_vars inv with
        | .error e => .error e
        | .ok inv2 => .ok (load_group_hierarchy group_hierarchy inv2)
  else .ok init_inventory

/-! ### Preservation lemmas for the group-vars and hierarchy stages -/

theorem pyGet_load_group_vars (g : String) (data : Value) (inv : Inventory)
    (gname : String) :
    pyGet (load_group_vars g data inv).groups gname =
      if gname = g
      then some { (pyGet inv.groups g).getD emptyGroup with vars := data }
      else pyGet inv.groups gname := by
  have hinit := pyGet_init_ansible_group g inv g
  rw [if_pos rfl] at hinit
  unfold load_group_vars
  by_cases hgg : gname = g
  · subst hgg
    rw [if_pos rfl]
    show pyGet (pyInsert (init_ansible_group gname inv).groups gname _) gname = _
    rw [pyGet_pyInsert_self, hinit]
    simp
  · rw [if_neg hgg]
    show pyGet (pyInsert (init_ansible_group g inv).groups g _) gname = _
    rw [pyGet_pyInsert_ne _ _ hgg, pyGet_init_ansible_group, if_neg hgg]

theorem pyGet_set_group_children (parent : String) (cs : List String) (inv : Inventory)
    (gname : String) :
    pyGet (set_group_children parent cs inv).groups gname =
      if gname = parent
      then some { (pyGet inv.groups parent).getD emptyGroup with children := cs }
      else pyGet inv.groups gname := by
  have hinit := pyGet_init_ansible_group parent inv parent
  rw [if_pos rfl] at hinit
  unfold set_group_children
  by_cases hgg : gname = parent
  · subst hgg
    rw [if_pos rfl]
    show pyGet (pyInsert (init_ansible_group gname inv).groups gname _) gname = _
    rw [pyGet_pyInsert_self, hinit]
    simp
  · rw [if_neg hgg]
    show pyGet (pyInsert (init_ansible_group parent inv).groups parent _) gname = _
    rw [pyGet_pyInsert_ne _ _ hgg, pyGet_init_ansible_group, if_neg hgg]

theorem hostvars_load_group_vars (g : String) (data : Value) (inv : Inventory) :
    (load_group_vars g data inv).hostvars = inv.hostvars := by
  show (init_ansible_group g inv).hostvars = inv.hostvars
  exact hostvars_init_ansible_group g inv

theorem hostvars_set_group_children (parent : String) (cs : List String)
    (inv : Inventory) :
    (set_group_children parent cs inv).hostvars = inv.hostvars := by
  show (init_ansible_group parent inv).hostvars = inv.hostvars
  exact hostvars_init_ansible_group parent inv

theorem hostIn_init_rev {g : String} {inv : Inventory} {gname : String} {x : Value}
    (h : hostIn (init_ansible_group g inv) gname x) : hostIn inv gname x := by
  obtain ⟨grp, hget, hx⟩ := h
  rw [pyGet_init_ansible_group] at hget
  by_cases hgg : gname = g
  · subst hgg
    rw [if_pos rfl] at hget
    obtain rfl := Option.some.inj hget
    cases hbase : pyGet inv.groups gname with
    | none =>
        rw [hbase] at hx
        simp [emptyGroup] at hx
    | some grp0 =>
        rw [hbase] at hx
        exact ⟨grp0, hbase, hx⟩
  · rw [if_neg hgg] at hget
    exact ⟨grp, hget, hx⟩

theorem hostIn_load_group_vars_rev {g : String} {data : Value} {inv : Inventory}
    {gname : String} {x : Value}
    (h : hostIn (load_group_vars g data inv) gname x) : hostIn inv gname x := by
  obtain ⟨grp, hget, hx⟩ := h
  rw [pyGet_load_group_vars] at hget
  by_cases hgg : gname = g
  · subst hgg
    rw [if_pos rfl] at hget
    obtain rfl := Option.some.inj hget
    cases hbase : pyGet inv.groups gname with
    | none =>
        rw [hbase] at hx
        simp [emptyGroup] at hx
    | some grp0 =>
        rw [hbase] at hx
        exact ⟨grp0, hbase, hx⟩
  · rw [if_neg hgg] at hget
    exact ⟨grp, hget, hx⟩

theorem hostIn_set_group_children_rev {parent : String} {cs : List String}
    {inv : Inventory} {gname : String} {x : Value}
    (h : hostIn (set_group_children parent cs inv) gname x) : hostIn inv gname x := by
  obtain ⟨grp, hget, hx⟩ := h
  rw [pyGet_set_group_children] at hget
  by_cases hgg : gname = parent
  · subst hgg
    rw [if_pos rfl] at hget
    obtain rfl := Option.some.inj hget
    cases hbase : pyGet inv.groups gname with
    | none =>
        rw [hbase] at hx
        simp [emptyGroup] at hx
    | some grp0 =>
        rw [hbase] at hx
        exact ⟨grp0, hbase, hx⟩
  · rw [if_neg hgg] at hget
    exact ⟨grp, hget, hx⟩

theorem hostvars_load_group_hierarchy :
    ∀ (l : List (String × Value)) (inv : Inventory),
      (load_group_hierarchy l inv).hostvars = inv.hostvars
  | [], _ => rfl
  | pc :: rest, inv => by
      show (load_group_hierarchy rest (load_group_hierarchy_step pc.1 pc.2 inv)).hostvars =
        inv.hostvars
      rw [hostvars_load_group_hierarchy rest]
      obtain ⟨parent, children⟩ := pc
      cases children with
      | obj cs =>
          show (load_group_hierarchy cs
            (set_group_children parent (cs.map Prod.fst) inv)).hostvars = inv.hostvars
          rw [hostvars_load_group_hierarchy cs]
          exact hostvars_set_group_children parent _ inv
      | null => exact hostvars_init_ansible_group parent inv
      | bool b => exact hostvars_init_ansible_group parent inv
      | num n => exact hostvars_init_ansible_group parent inv
      | str s2 => exact hostvars_init_ansible_group parent inv
      | list l2 => exact hostvars_init_ansible_group parent inv

theorem hostIn_lgh_rev :
    ∀ (l : List (String × Value)) (inv : Inventory) (gname : String) (x : Value),
      hostIn (load_group_hierarchy l inv) gname x → hostIn inv gname x
  | [], _, _, _, h => h
  | pc :: rest, inv, gname, x, h => by
      have h2 : hostIn (load_group_hierarchy_step pc.1 pc.2 inv) gname x :=
        hostIn_lgh_rev rest (load_group_hierarchy_step pc.1 pc.2 inv) gname x h
      obtain ⟨parent, children⟩ := pc
      cases children with
      | obj cs =>
          have h3 : hostIn (set_group_children parent (cs.map Prod.fst) inv) gname x :=
            hostIn_lgh_rev cs (set_group_children parent (cs.map Prod.fst) inv) gname x h2
          exact hostIn_set_group_children_rev h3
      | null => exact hostIn_init_rev h2
      | bool b => exact hostIn_init_rev h2
      | num n => exact hostIn_init_rev h2
      | str s2 => exact hostIn_init_rev h2
      | list l2 => exact hostIn_init_rev h2

theorem load_group_vars_all_rev (data_sets : List (String × List Record)) :
    ∀ (gvs : List (String × String)) (inv0 inv1 : Inventory),
      load_group_vars_all data_sets gvs inv0 = .ok inv1 →
      inv1.hostvars = inv0.hostvars ∧
        ∀ (gname : String) (x : Value), hostIn inv1 gname x → hostIn inv0 gname x
  | [], inv0, inv1, h => by
      obtain rfl := Except.ok.inj h
      exact ⟨rfl, fun _ _ hx => hx⟩
  | gv :: rest, inv0, inv1, h => by
      cases hds : pyGet data_sets gv.2 with
      | none => simp [load_group_vars_all, hds] at h
      | some ds =>
          simp only [load_group_vars_all, hds] at h
          obtain ⟨hhv, hrev⟩ := load_group_vars_all_rev data_sets rest _ inv1 h
          refine ⟨?_, ?_⟩
          · rw [hhv]
            exact hostvars_load_group_vars _ _ _
          · intro gname x hx
            exact hostIn_load_group_vars_rev (hrev gname x hx)

/-- Combined induction over the `elements` loop: any host of the final
inventory was a host initially or is a key of some element's indexing
pass; `_meta.hostvars` keys are preserved; and every key of every
element's indexing pass ends under `_meta.hostvars`. -/
theorem render_elements_props (data_sets : List (String × List Record)) :
    ∀ (els : List RenderElement) (inv0 inv1 : Inventory),
      render_elements data_sets els inv0 = .ok inv1 →
      (∀ (gname : String) (x : Value), hostIn inv1 gname x →
        hostIn inv0 gname x ∨
          ∃ el ∈ els, ∃ ds indxd,
            pyGet data_sets el.ds_name = some ds ∧
            index_elements el.useBuild el.idxF
              (render_pairs ds el.pre el.hvars el.post) = .ok indxd ∧
            (pyGet indxd x).isSome) ∧
      (∀ x : Value, (pyGet inv0.hostvars x).isSome → (pyGet inv1.hostvars x).isSome) ∧
      (∀ el ∈ els, ∀ (ds : List Record) (indxd : List (Value × RElt)),
        pyGet data_sets el.ds_name = some ds →
        index_elements el.useBuild el.idxF
          (render_pairs ds el.pre el.hvars el.post) = .ok indxd →
        ∀ x : Value, (pyGet indxd x).isSome → (pyGet inv1.hostvars x).isSome)
  | [], inv0, inv1, h => by
      obtain rfl := Except.ok.inj h
      refine ⟨fun gname x hx => .inl hx, fun x hx => hx, ?_⟩
      intro el hel
      exact absurd hel (by simp)
  | el0 :: rest, inv0, inv1, h => by
      cases hds : pyGet data_sets el0.ds_name with
      | none => simp [render_elements, hds] at h
      | some ds0 =>
          simp only [render_elements, hds] at h
          cases hrg : render_group ds0 el0.pre el0.hvars el0.post el0.useBuild el0.idxF
              el0.group_by el0.grp_pfx el0.ds_name inv0 with
          | error e => simp [hrg] at h
          | ok inv2 =>
              simp only [hrg] at h
              obtain ⟨ihf, ihm, ihall⟩ := render_elements_props data_sets rest inv2 inv1 h
              refine ⟨?_, ?_, ?_⟩
              · intro gname x hx
                rcases ihf gname x hx with h2 | ⟨el, hel, ds, indxd, hds2, hix, hsome⟩
                · rcases render_group_hostIn_forward hrg h2 with h3 | ⟨indxd, hix, hsome⟩
                  · exact .inl h3
                  · exact .inr ⟨el0, List.mem_cons_self _ _, ds0, indxd, hds, hix, hsome⟩
                · exact .inr ⟨el, List.mem_cons_of_mem _ hel, ds, indxd, hds2, hix, hsome⟩
              · intro x hx
                exact ihm x (render_group_hostvars_mono hrg x hx)
              · intro el hel ds indxd hds2 hix x hx
                rcases List.mem_cons.mp hel with rfl | hel2
                · rw [hds] at hds2
                  obtain rfl := Option.some.inj hds2
                  exact ihm x (render_group_hostvars_all hrg hix x hx)
                · exact ihall el hel2 ds indxd hds2 hix x hx

/-- C9 (counterexample): quantified over whole rendered inventories the
round-trip claim fails — the `elements` array admits several entries
sharing one inventory, and each entry's exclusive indexing pass starts
from a fresh `result` dict, so two elements can both produce the *same*
identifier: here the passes of `d1` and `d2` each produce identifier
`1`, the whole render succeeds, and `1` sits in the `all` group's hosts
having been produced twice, not exactly once. -/
theorem claim_C9_counterexample :
    render_inventory [("d1", [[("id", Value.num 1)]]),
        ("d2", [[("id", Value.num 1), ("x", Value.num 2)]])]
      [⟨"d1", none, fun r => r, none, false, qField "id", [], ""⟩,
        ⟨"d2", none, fun r => r, none, false, qField "id", [], ""⟩] [] [] true =
      .ok ⟨[(Value.num 1, [("id", Value.num 1), ("x", Value.num 2)])],
        [("d1", ⟨[Value.num 1], Value.obj [], []⟩),
          ("all", ⟨[Value.num 1], Value.obj [], []⟩),
          ("d2", ⟨[Value.num 1], Value.obj [], []⟩)]⟩ ∧
      index_elements false (qField "id")
        (render_pairs [[("id", Value.num 1)]] none (fun r => r) none) =
        .ok [(Value.num 1, (0, ([("id", Value.num 1)], [("id", Value.num 1)])))] ∧
      index_elements false (qField "id")
        (render_pairs [[("id", Value.num 1), ("x", Value.num 2)]] none
          (fun r => r) none) =
        .ok [(Value.num 1, (0, ([("id", Value.num 1), ("x", Value.num 2)],
          [("id", Value.num 1), ("x", Value.num 2)])))] ∧
      hostIn ⟨[(Value.num 1, [("id", Value.num 1), ("x", Value.num 2)])],
        [("d1", ⟨[Value.num 1], Value.obj [], []⟩),
          ("all", ⟨[Value.num 1], Value.obj [], []⟩),
          ("d2", ⟨[Value.num 1], Value.obj [], []⟩)]⟩ "all" (Value.num 1) :=
  ⟨rfl, rfl, rfl, ⟨⟨[Value.num 1], Value.obj [], []⟩, rfl, by decide⟩⟩

/-- C9 (amended): for a successful whole-inventory render (any number
of elements, group vars and group hierarchy), every identifier in any
group's hosts list was produced by the exclusive indexing pass of at
least one render element — within each element's pass exactly once (a
pass's keys are pairwise distinct), though several elements may produce
the same identifier — and every identifier produced by any element's
indexing pass appears as a key under `_meta.hostvars`, whether or not a
host-var projection was configured for its data set. -/
theorem claim_C9_amended (data_sets : List (String × List Record))
    (elements : List RenderElement) (group_vars : List (String × String))
    (group_hierarchy : List (String × Value)) (inv : Inventory)
    (h : render_inventory data_sets elements group_vars group_hierarchy true =
      .ok inv) :
    (∀ (gname : String) (x : Value), hostIn inv gname x →
      ∃ el ∈ elements, ∃ (ds : List Record) (indxd : List (Value × RElt)),
        pyGet data_sets el.ds_name = some ds ∧
        index_elements el.useBuild el.idxF
          (render_pairs ds el.pre el.hvars el.post) = .ok indxd ∧
        (pyGet indxd x).isSome ∧ (indxd.map Prod.fst).Nodup) ∧
      (∀ el ∈ elements, ∀ (ds : List Record) (indxd : List (Value × RElt)),
        pyGet data_sets el.ds_name = some ds →
        index_elements el.useBuild el.idxF
          (render_pairs ds el.pre el.hvars el.post) = .ok indxd →
        ∀ x : Value, (pyGet indxd x).isSome → (pyGet inv.hostvars x).isSome) ∧
      (∀ (gname : String) (x : Value), hostIn inv gname x →
        (pyGet inv.hostvars x).isSome) := by
  unfold render_inventory at h
  rw [if_pos rfl] at h
  cases hre : render_elements data_sets elements init_inventory with
  | error e => simp [hre] at h
  | ok invA =>
      simp only [hre] at h
      cases hgv : load_group_vars_all data_sets group_vars invA with
      | error e => simp [hgv] at h
      | ok invB =>
          simp only [hgv] at h
          obtain rfl := Except.ok.inj h
          obtain ⟨hfwd, hmono, hall⟩ :=
            render_elements_props data_sets elements init_inventory invA hre
          obtain ⟨hgvhv, hgvrev⟩ :=
            load_group_vars_all_rev data_sets group_vars invA invB hgv
          have hhvh := hostvars_load_group_hierarchy group_hierarchy invB
          refine ⟨?_, ?_, ?_⟩
          · intro gname x hx
            have hx2 : hostIn invA gname x :=
              hgvrev gname x (hostIn_lgh_rev group_hierarchy invB gname x hx)
            rcases hfwd gname x hx2 with h2 | ⟨el, hel, ds, indxd, hds, hix, hsome⟩
            · obtain ⟨grp, hget, _⟩ := h2
              simp [init_inventory, pyGet] at hget
            · exact ⟨el, hel, ds, indxd, hds, hix, hsome,
                index_elements_keys_nodup hix⟩
          · intro el hel ds indxd hds hix x hx
            rw [hhvh, hgvhv]
            exact hall el hel ds indxd hds hix x hx
          · intro gname x hx
            have hx2 : hostIn invA gname x :=
              hgvrev gname x (hostIn_lgh_rev group_hierarchy invB gname x hx)
            rcases hfwd gname x hx2 with h2 | ⟨el, hel, ds, indxd, hds, hix, hsome⟩
            · obtain ⟨grp, hget, _⟩ := h2
              simp [init_inventory, pyGet] at hget
            · rw [hhvh, hgvhv]
              exact hall el hel ds indxd hds hix x hsome

/-- C9 (witness): at the one-element render of the data set `[{id:1}]`,
identifier `1` — a host of `all` in the rendered inventory — is
produced by that element's exclusive indexing pass, whose keys are
pairwise distinct. -/
theorem claim_C9_witness :
    ∃ el ∈ [(⟨"d1", none, fun r => r, none, false, qField "id", [], ""⟩ :
        RenderElement)],
      ∃ (ds : List Record) (indxd : List (Value × RElt)),
        pyGet [("d1", [[("id", Value.num 1)]])] el.ds_name = some ds ∧
        index_elements el.useBuild el.idxF
          (render_pairs ds el.pre el.hvars el.post) = .ok indxd ∧
        (pyGet indxd (Value.num 1)).isSome ∧ (indxd.map Prod.fst).Nodup := by
  have h := claim_C9_amended [("d1", [[("id", Value.num 1)]])]
    [⟨"d1", none, fun r => r, none, false, qField "id", [], ""⟩] [] []
    ⟨[(Value.num 1, [("id", Value.num 1)])],
      [("d1", ⟨[Value.num 1], Value.obj [], []⟩),
        ("all", ⟨[Value.num 1], Value.obj [], []⟩)]⟩ rfl
  exact h.1 "all" (Value.num 1) ⟨⟨[Value.num 1], Value.obj [], []⟩, rfl, by decide⟩
